import Mathlib

/-!
Verification development for the enjoi-browser JSON-Schema to Joi translator
(lib/enjoi.js). The JavaScript source is shallowly embedded: JS values are
modelled by the `JSON` inductive (with an explicit `undef` for the JS
undefined value), the opaque Joi rule objects are modelled by the `Rule`
inductive whose constructors record exactly the builder-chain calls the
source performs, and every thrown assertion is an `Err` value in `Except`.

Since the source mutates schema nodes in one place (regularString writes
`minLength = 0` onto the node it is given), each resolver returns the
possibly-updated node alongside the built rule. JS reference aliasing
(a `$ref` fragment is a reference into the root document, and merged allOf
nodes share child references with the members) is not tracked: a resolver
returns the updated copy of the node it received.

Recursion in the source is unbounded (a cyclic `$ref` chain overflows the
call stack, as the repository documents); the embedding makes this explicit
with a fuel parameter, `Err.stackOverflow` standing for stack exhaustion.
-/

namespace Enjoi

/-- A JavaScript value as far as the translator can observe it.
`undef` is the JS `undefined` value (also the result of reading an absent
key). Objects are insertion-ordered key/value lists; a JS object never has
a duplicate key. Numbers are rationals (NaN and infinities are not
modelled). -/
inductive JSON where
  | undef : JSON
  | null : JSON
  | bool : Bool → JSON
  | num : Rat → JSON
  | str : String → JSON
  | arr : List JSON → JSON
  | obj : List (String × JSON) → JSON
  deriving Inhabited

mutual

/-- Structural equality of JSON values, as a boolean. -/
def JSON.beq : JSON → JSON → Bool
  | .undef, .undef => true
  | .null, .null => true
  | .bool a, .bool b => a == b
  | .num a, .num b => a == b
  | .str a, .str b => a == b
  | .arr a, .arr b => JSON.beqList a b
  | .obj a, .obj b => JSON.beqPairs a b
  | _, _ => false

/-- Elementwise `JSON.beq` on lists. -/
def JSON.beqList : List JSON → List JSON → Bool
  | [], [] => true
  | a :: as, b :: bs => JSON.beq a b && JSON.beqList as bs
  | _, _ => false

/-- Elementwise `JSON.beq` on key/value lists. -/
def JSON.beqPairs : List (String × JSON) → List (String × JSON) → Bool
  | [], [] => true
  | (k, v) :: as, (k', v') :: bs =>
      k == k' && JSON.beq v v' && JSON.beqPairs as bs
  | _, _ => false

end

/-- The JS strict equality `v === "s"` against a string literal. -/
def eqStr (v : JSON) (s : String) : Bool :=
  JSON.beq v (.str s)

/-- lodash isUndefined. -/
def isUndefB : JSON → Bool
  | .undef => true
  | _ => false

/-- JS truthiness of a value (`if (x)`): undefined, null, false, 0 and the
empty string are falsy; every object and array is truthy. -/
def truthy : JSON → Bool
  | .undef => false
  | .null => false
  | .bool b => b
  | .num q => q != 0
  | .str s => s != ""
  | .arr _ => true
  | .obj _ => true

/-- First-occurrence lookup in an association list (JS property lookup). -/
def lookupFirst {α : Type} : List (String × α) → String → Option α
  | [], _ => none
  | (k', v) :: rest, k => if k' = k then some v else lookupFirst rest k

/-- The numeric value of a decimal digit character. -/
def digitVal? (c : Char) : Option Nat :=
  if c = '0' then some 0 else if c = '1' then some 1
  else if c = '2' then some 2 else if c = '3' then some 3
  else if c = '4' then some 4 else if c = '5' then some 5
  else if c = '6' then some 6 else if c = '7' then some 7
  else if c = '8' then some 8 else if c = '9' then some 9 else none

/-- Parse a non-empty all-digit character list as a decimal number. -/
def digitsToNat? : List Char → Option Nat → Option Nat
  | [], acc => acc
  | c :: cs, acc =>
      match digitVal? c, acc with
      | some d, some a => digitsToNat? cs (some (a * 10 + d))
      | some d, none => digitsToNat? cs (some d)
      | none, _ => none

/-- Parse a string as a decimal number when it is made of digits only. -/
def strToNat? (s : String) : Option Nat := digitsToNat? s.data none

/-- JS array indexing by a property-key string: only the canonical decimal
representation of an index reaches an element, anything else reads as
undefined. -/
def arrIndex (l : List JSON) (k : String) : JSON :=
  match strToNat? k with
  | some i => if toString i = k then l.getD i .undef else .undef
  | none => JSON.undef

/-- Pure property read `x[k]` for values where the read cannot throw:
objects and arrays index, primitives yield undefined. (Reads on undefined
or null throw in JS; `jget` covers that case.) -/
def getkPure (n : JSON) (k : String) : JSON :=
  match n with
  | .obj l => (lookupFirst l k).getD .undef
  | .arr l => arrIndex l k
  | _ => JSON.undef

/-- The errors the translator can raise. Each constructor corresponds to a
throw site of the source: `typeErr` is the JS TypeError raised by a
property read on undefined or null (or a missing method), `refNotFound` is
the `Can not find schema reference` assertion, the `shape*` constructors
are the `Expected ... to be an array` assertions of the combinator
resolvers, `mergeType` is the `Expected allOf item to be an array or
object` assertion, `unresolvedType` is the `Could not resolve type`
assertion (payload: the value of `current.type`), `configErr` is the entry
validation of `translate`, and `stackOverflow` models call-stack
exhaustion of the unguarded recursion. -/
inductive Err where
  | typeErr : Err
  | configErr : Err
  | refNotFound : Err
  | shapeAnyOf : Err
  | shapeAllOf : Err
  | shapeOneOf : Err
  | shapeNot : Err
  | mergeType : Err
  | unresolvedType : JSON → Err
  | stackOverflow : Err

/-- Property read `n[k]` as the source performs it: throws a TypeError on
undefined and null, otherwise reads (absent keys give undefined). -/
def jget (n : JSON) (k : String) : Except Err JSON :=
  match n with
  | .undef => .error .typeErr
  | .null => .error .typeErr
  | _ => .ok (getkPure n k)

/-- First-occurrence replace-or-append, the JS property write semantics. -/
def setPair {α : Type} : List (String × α) → String → α → List (String × α)
  | [], k, v => [(k, v)]
  | (k', v') :: rest, k, v =>
      if k' = k then (k, v) :: rest else (k', v') :: setPair rest k v

/-- Property write `n[k] = v`; on non-objects this is unobservable here. -/
def jset (n : JSON) (k : String) (v : JSON) : JSON :=
  match n with
  | .obj l => .obj (setPair l k v)
  | _ => n

/-- lodash isArray. -/
def isArrB : JSON → Bool
  | .arr _ => true
  | _ => false

/-- lodash isNumber. -/
def isNumB : JSON → Bool
  | .num _ => true
  | _ => false

/-- lodash isObject: true for objects and arrays. -/
def isObjectJS : JSON → Bool
  | .obj _ => true
  | .arr _ => true
  | _ => false

/-- Is the value a JS object proper (mapping)? -/
def isObjB : JSON → Bool
  | .obj _ => true
  | _ => false

/-- Is the value a JS string? -/
def isStrB : JSON → Bool
  | .str _ => true
  | _ => false

/-- Is the value a JS boolean? -/
def isBoolB : JSON → Bool
  | .bool _ => true
  | _ => false

/-- A Joi validation rule, modelled syntactically: each constructor records
one builder call of the source, so two rules are structurally equivalent
exactly when the source performed the same chain of builder calls.
Arguments are the raw JS values the source passes. -/
inductive Rule where
  | any : Rule
  | boolean : Rule
  | number : Rule
  | string : Rule
  | date : Rule
  | binary : Rule
  | array : Rule
  | object : Option (List (String × Rule)) → Rule
  | alternatives : List Rule → Rule
  | valid : JSON → Rule → Rule
  | integer : Rule → Rule
  | min : JSON → Rule → Rule
  | max : JSON → Rule → Rule
  | greater : JSON → Rule → Rule
  | less : JSON → Rule → Rule
  | multiple : JSON → Rule → Rule
  | unknown : Rule → Rule
  | pattern : Rule → Rule → Rule
  | items : List Rule → Rule → Rule
  | ordered : List Rule → Rule → Rule
  | unique : Rule → Rule
  | email : Rule → Rule
  | hostname : Rule → Rule
  | ip : String → Rule → Rule
  | uri : Rule → Rule
  | base64 : Rule → Rule
  | regex : JSON → Rule → Rule
  | allow : JSON → Rule → Rule
  | tryW : List Rule → Rule → Rule
  | whenW : Rule → Rule → Rule → Rule → Rule
  | required : Rule → Rule
  | forbidden : Rule → Rule
  | strict : Bool → Rule → Rule
  | description : JSON → Rule → Rule
  | label : JSON → Rule → Rule
  | defaultV : JSON → Rule → Rule
  deriving Inhabited

/-- The validated configuration of a `translate` call. `subSchemas` is the
raw JS value supplied by the caller (undefined when absent, null allowed);
`types` maps custom type names to caller-supplied rules; `refineType` is
the optional remapping hook; `strictMode` defaults to false. -/
structure Cfg where
  subSchemas : JSON := .undef
  types : Option (List (String × Rule)) := none
  refineType : Option (JSON → JSON → JSON) := none
  strictMode : Bool := false

/-- The observable outcome of resolving one node: the built rule, the
possibly-updated node (the source mutates nodes in place), and the nodes
for which the fallback warning was printed, in print order. -/
structure Res where
  rule : Rule
  node : JSON
  warns : List JSON

/-- Split a character list at every occurrence of a separator. -/
def splitChars (sep : Char) : List Char → List (List Char)
  | [] => [[]]
  | c :: cs =>
      if c = sep then [] :: splitChars sep cs
      else
        match splitChars sep cs with
        | [] => [[c]]
        | g :: gs => (c :: g) :: gs

/-- Split a string at every occurrence of a separator character. -/
def splitOnChar (s : String) (sep : Char) : List String :=
  (splitChars sep s.data).map String.mk

/-- Join strings with a separator between consecutive elements. -/
def joinWith (sep : String) : List String → String
  | [] => ""
  | [x] => x
  | x :: xs => x ++ sep ++ joinWith sep xs

/-- Split a reference URI at its first `#` exactly as the source does with
`indexOf`/`substr`: the id keeps the `#`; with no `#` the id is empty and
the path is the whole string. -/
def splitRef (value : String) : String × String :=
  match splitOnChar value '#' with
  | [] => ("", value)
  | [_] => ("", value)
  | p :: rest => (p ++ "#", joinWith "#" rest)

/-- One step of the fragment walk: `typeof fragment === "object" &&
fragment[p]`. Called only on truthy fragments, so the object test selects
objects and arrays; a truthy primitive yields the boolean false. -/
def refStep (frag : JSON) (p : String) : JSON :=
  match frag with
  | .obj l => (lookupFirst l p).getD .undef
  | .arr l => arrIndex l p
  | _ => .bool false

/-- The fragment walk loop: advances while the fragment stays truthy,
returning whatever was reached (possibly undefined or false). -/
def refWalk (frag : JSON) : List String → JSON
  | [] => frag
  | p :: rest => if truthy frag then refWalk (refStep frag p) rest else frag

/-- The reference resolver `resolveref(value)` of the source: look the id
up in the sub-schema registry (exact id, then id without its trailing
`#`), fall back to the root schema, assert a candidate exists, then walk
the slash-delimited fragment path skipping the first segment. -/
def resolveref (cfg : Cfg) (root : JSON) (value : String) : Except Err JSON :=
  let (id, path) := splitRef value
  let refschema0 : JSON :=
    if id ≠ "" ∧ truthy cfg.subSchemas then
      let a := getkPure cfg.subSchemas id
      if truthy a then a else getkPure cfg.subSchemas (id.dropRight 1)
    else .undef
  let refschema := if truthy refschema0 then refschema0 else root
  if truthy refschema then
    .ok (refWalk refschema ((splitOnChar path '/').drop 1))
  else .error .refNotFound

/-- `getSchemaType` of the source: the type of the node, following `$ref`
when the type is absent. -/
def getSchemaType (cfg : Cfg) (root : JSON) (current : JSON) : Except Err JSON := do
  let t ← jget current "type"
  if truthy t then pure t
  else do
    let r ← jget current "$ref"
    if truthy r then
      match r with
      | .str s => do
          let frag ← resolveref cfg root s
          jget frag "type"
      | _ => .error .typeErr
    else pure JSON.undef

/-- The `if (item.$ref) item = resolveref(item.$ref)` step of the merge
loops. -/
def derefItem (cfg : Cfg) (root : JSON) (item : JSON) : Except Err JSON := do
  let r ← jget item "$ref"
  if truthy r then
    match r with
    | .str s => resolveref cfg root s
    | _ => .error .typeErr
  else pure item

/-- Object.assign of one source into a target, key by key in source order.
-/
def objAssign (t : List (String × JSON)) (s : List (String × JSON)) :
    List (String × JSON) :=
  s.foldl (fun acc kv => setPair acc kv.1 kv.2) t

/-- The enumerable own properties Object.assign reads from a non-object
source: array elements under their index keys, string characters under
theirs, nothing for other primitives. -/
def assignSource : JSON → List (String × JSON)
  | .obj l => l
  | .arr l => (l.enum.map fun p => (toString p.1, p.2))
  | .str s => (s.toList.enum.map fun p => (toString p.1, JSON.str (toString p.2)))
  | _ => []

/-- The JS `x.concat(y)` semantics used for required/ordered lists: an
array argument is spread, a falsy one contributes nothing (`|| []`), any
other value is appended as a single element. -/
def concatJS (v : JSON) : List JSON :=
  match v with
  | .arr l => l
  | v => if truthy v then [v] else []

/-- The loop body of `mergeObject`: dereference each member, assign its
properties into the accumulator, concatenate its required list. -/
def mergeObjectFold (cfg : Cfg) (root : JSON) :
    List JSON → List (String × JSON) → List JSON →
    Except Err (List (String × JSON) × List JSON)
  | [], props, req => .ok (props, req)
  | item :: rest, props, req => do
      let item ← derefItem cfg root item
      let ps ← jget item "properties"
      let props := objAssign props (assignSource ps)
      let rq ← jget item "required"
      mergeObjectFold cfg root rest props (req ++ concatJS rq)

/-- `mergeObject` of the source. An empty concatenated required list is
left off the merged node (the source stores undefined there, which reads
identically). -/
def mergeObject (cfg : Cfg) (root : JSON) (l : List JSON) : Except Err JSON := do
  let (props, req) ← mergeObjectFold cfg root l [] []
  pure (.obj ([("type", .str "object"), ("properties", .obj props)] ++
    if req.isEmpty then [] else [("required", .arr req)]))

/-- The loop body of `mergeArray`: an array-valued `items` is flattened in
together with the parallel `ordered` list, any other `items` value (a
single schema, possibly undefined) is appended as one entry. -/
def mergeArrayFold (cfg : Cfg) (root : JSON) :
    List JSON → List JSON → List JSON → Except Err (List JSON × List JSON)
  | [], items, ordered => .ok (items, ordered)
  | item :: rest, items, ordered => do
      let item ← derefItem cfg root item
      let its ← jget item "items"
      match its with
      | .arr l => do
          let ord ← jget item "ordered"
          mergeArrayFold cfg root rest (items ++ l) (ordered ++ concatJS ord)
      | v => mergeArrayFold cfg root rest (items ++ [v]) ordered

/-- `mergeArray` of the source; an empty ordered list is left off the
merged node, matching the undefined the source stores. -/
def mergeArray (cfg : Cfg) (root : JSON) (l : List JSON) : Except Err JSON := do
  let (items, ordered) ← mergeArrayFold cfg root l [] []
  pure (.obj ([("type", .str "array"), ("items", .arr items)] ++
    if ordered.isEmpty then [] else [("ordered", .arr ordered)]))

/-- The member check loop of `resolveAllOf`: every member must share the
type of the first member, which must be array or object. -/
def checkAllOfMembers (cfg : Cfg) (root : JSON) (t : JSON) :
    List JSON → Except Err Unit
  | [] => .ok ()
  | m :: rest => do
      let t' ← getSchemaType cfg root m
      if (eqStr t' "array" || eqStr t' "object") && JSON.beq t t' then
        checkAllOfMembers cfg root t rest
      else .error .mergeType

/-- `number(current)` of the source: integer constraint when the declared
type is literally `integer`, then the numeric bounds guarded by
isNumber, with a zero `multipleOf` ignored. -/
def number (current : JSON) : Except Err Rule := do
  let t ← jget current "type"
  let js := if eqStr t "integer" then Rule.integer Rule.number else Rule.number
  let mn ← jget current "minimum"
  let js := if isNumB mn then Rule.min mn js else js
  let mx ← jget current "maximum"
  let js := if isNumB mx then Rule.max mx js else js
  let emn ← jget current "exclusiveMinimum"
  let js := if isNumB emn then Rule.greater emn js else js
  let emx ← jget current "exclusiveMaximum"
  let js := if isNumB emx then Rule.less emx js else js
  let mo ← jget current "multipleOf"
  pure (if isNumB mo && !JSON.beq mo (.num 0) then Rule.multiple mo js else js)

/-- `date(current)` of the source: bounds applied only when truthy, so a
zero bound is skipped (the documented quirk). -/
def date (current : JSON) : Except Err Rule := do
  let mn ← jget current "minimum"
  let js := if truthy mn then Rule.min mn Rule.date else Rule.date
  let mx ← jget current "maximum"
  pure (if truthy mx then Rule.max mx js else js)

/-- `binary(current)` of the source, with the same truthiness quirk. -/
def binary (current : JSON) : Except Err Rule := do
  let mn ← jget current "minLength"
  let js := if truthy mn then Rule.min mn Rule.binary else Rule.binary
  let mx ← jget current "maxLength"
  pure (if truthy mx then Rule.max mx js else js)

/-- `regularString(current, joischema)` of the source. This is the one
place the source writes to a schema node: an absent `minLength` is set to
0 on the node itself before being read back. The updated node is
returned alongside the rule. -/
def regularString (current : JSON) (joischema : Rule) :
    Except Err (Rule × JSON) := do
  let p ← jget current "pattern"
  let js := if truthy p then Rule.regex p joischema else joischema
  let ml0 ← jget current "minLength"
  let current := if isUndefB ml0 then jset current "minLength" (.num 0) else current
  let ml ← jget current "minLength"
  let js :=
    if isNumB ml then
      Rule.min ml (if JSON.beq ml (.num 0) then Rule.allow (.str "") js else js)
    else js
  let mxl ← jget current "maxLength"
  pure (if isNumB mxl then Rule.max mxl js else js, current)

/-- `string(current)` of the source: enum short-circuits to a literal
rule, date/date-time and binary formats delegate, the remaining formats
add their constraint before the common string handling. -/
def string (current : JSON) : Except Err (Rule × JSON) := do
  let e ← jget current "enum"
  if truthy e then pure (Rule.valid e Rule.any, current)
  else do
    let f ← jget current "format"
    if eqStr f "date" || eqStr f "date-time" then do
      let r ← date current
      pure (r, current)
    else if eqStr f "binary" then do
      let r ← binary current
      pure (r, current)
    else
      let base := Rule.string
      let base :=
        if eqStr f "email" then Rule.email base
        else if eqStr f "hostname" then Rule.hostname base
        else if eqStr f "ipv4" then Rule.ip "ipv4" base
        else if eqStr f "ipv6" then Rule.ip "ipv6" base
        else if eqStr f "uri" then Rule.uri base
        else if eqStr f "byte" then Rule.base64 base
        else base
      regularString current base

/-- The membership test `!!~current.required.indexOf(key)` for a truthy
required value: arrays search by strict equality, strings search for a
substring (an empty key is always found), anything else has no indexOf
method and throws. -/
def requiredCheck (req : JSON) (key : String) : Except Err Bool :=
  match req with
  | .arr l => .ok (l.any fun x => JSON.beq x (.str key))
  | .str s => .ok (if key = "" then true else (s.splitOn key).length > 1)
  | _ => .error .typeErr

/-- The resolver type the mutually recursive helpers receive: in the
source they close over `resolve`, here it is passed explicitly. -/
abbrev Resolver := JSON → Except Err Res

/-- Resolve a list of nodes in order, collecting rules, updated nodes and
warnings. -/
def mapThread (res : Resolver) : List JSON →
    Except Err (List Rule × List JSON × List JSON)
  | [] => .ok ([], [], [])
  | x :: xs => do
      let r ← res x
      let (rs, xs', ws) ← mapThread res xs
      .ok (r.rule :: rs, r.node :: xs', r.warns ++ ws)

/-- `resolveAsArray(value)` of the source: an array resolves per element,
a single value resolves to a one-element list. -/
def resolveAsArray (res : Resolver) (value : JSON) :
    Except Err (List Rule × JSON × List JSON) :=
  match value with
  | .arr l => do
      let (rs, l', ws) ← mapThread res l
      pure (rs, .arr l', ws)
  | v => do
      let r ← res v
      pure ([r.rule], r.node, r.warns)

/-- The required marking of one property: `if (current.required &&
!!~current.required.indexOf(key)) joischema = joischema.required()`. -/
def propRule (req : JSON) (key : String) (r : Rule) : Except Err Rule :=
  if truthy req then do
    let b ← requiredCheck req key
    pure (if b then Rule.required r else r)
  else pure r

/-- The Object.keys iteration of `resolveproperties`: resolve each
property, wrap it required when the required list contains its key,
assign it into the schemas accumulator. -/
def propsFold (res : Resolver) (req : JSON) (acc : List (String × Rule)) :
    List (String × JSON) →
    Except Err (List (String × Rule) × List (String × JSON) × List JSON)
  | [] => .ok (acc, [], [])
  | (key, v) :: rest => do
      let r ← res v
      let rule ← propRule req key r.rule
      let (m, entries, ws) ← propsFold res req (setPair acc key rule) rest
      .ok (m, (key, r.node) :: entries, r.warns ++ ws)

/-- The iterable entries of a properties value (an array iterates its
indices). -/
def jsEntries : JSON → List (String × JSON)
  | .obj l => l
  | .arr l => (l.enum.map fun p => (toString p.1, p.2))
  | _ => []

/-- Rebuild a properties value of the original shape from its updated
entries. -/
def rebuildLike (orig : JSON) (entries : List (String × JSON)) : JSON :=
  match orig with
  | .arr _ => .arr (entries.map Prod.snd)
  | _ => .obj entries

/-- `resolveproperties(current)` of the source: undefined when properties
is not an object, otherwise the per-key rule map. The updated children
are written back into the node. -/
def resolveproperties (res : Resolver) (current : JSON) :
    Except Err (Option (List (String × Rule)) × JSON × List JSON) := do
  let props ← jget current "properties"
  if isObjectJS props then do
    let req ← jget current "required"
    let (m, entries', ws) ← propsFold res req [] (jsEntries props)
    pure (some m, jset current "properties" (rebuildLike props entries'), ws)
  else pure (none, current, [])

/-- `object(current)` of the source. -/
def object (res : Resolver) (current : JSON) : Except Err Res := do
  let (props?, cur, w1) ← resolveproperties res current
  let js := Rule.object props?
  let ap ← jget cur "additionalProperties"
  let js := if JSON.beq ap (.bool true) then Rule.unknown js else js
  let (js, cur, ws) ←
    if isObjectJS ap then do
      let r ← res ap
      pure (Rule.pattern r.rule js, jset cur "additionalProperties" r.node,
        w1 ++ r.warns)
    else pure (js, cur, w1)
  let mnp ← jget cur "minProperties"
  let js := if isNumB mnp then Rule.min mnp js else js
  let mxp ← jget cur "maxProperties"
  pure ⟨if isNumB mxp then Rule.max mxp js else js, cur, ws⟩

/-- `array(current)` of the source: items (or ordered) children, the
additionalItems length cap, numeric min/max items, distinctness. -/
def array (res : Resolver) (current : JSON) : Except Err Res := do
  let it ← jget current "items"
  let (found, cur, ws) ←
    if truthy it then do
      let (rules, it', w) ← resolveAsArray res it
      pure (some (rules, false), jset current "items" it', w)
    else do
      let og ← jget current "ordered"
      if truthy og then do
        let (rules, og', w) ← resolveAsArray res og
        pure (some (rules, true), jset current "ordered" og', w)
      else pure (none, current, ([] : List JSON))
  let js :=
    match found with
    | some (rules, false) => Rule.items rules Rule.array
    | some (rules, true) => Rule.ordered rules Rule.array
    | none => Rule.array
  let ai ← jget cur "additionalItems"
  let js :=
    match found with
    | some (rules, _) =>
        if JSON.beq ai (.bool false) then Rule.max (.num rules.length) js else js
    | none => js
  let mni ← jget cur "minItems"
  let js := if isNumB mni then Rule.min mni js else js
  let mxi ← jget cur "maxItems"
  let js := if isNumB mxi then Rule.max mxi js else js
  let ui ← jget cur "uniqueItems"
  pure ⟨if truthy ui then Rule.unique js else js, cur, ws⟩

/-- The refined type `joitype` dispatches on: the caller-supplied
refineType hook applied to the declared type and format, when present. -/
def refinedOf (cfg : Cfg) (type format : JSON) : JSON :=
  match cfg.refineType with
  | some f => f type format
  | none => type

/-- The switch statement of `joitype`: dispatch on an already-refined
type, yielding the built rule or none when no builder applies (undefined
in the source). -/
def joitypeSwitch (cfg : Cfg) (res : Resolver) (current : JSON) (type : JSON) :
    Except Err (Option Res) :=
  if eqStr type "array" then do
    let r ← array res current
    pure (some r)
  else if eqStr type "boolean" then
    pure (some ⟨Rule.boolean, current, []⟩)
  else if eqStr type "integer" || eqStr type "number" then do
    let r ← number current
    pure (some ⟨r, current, []⟩)
  else if eqStr type "object" then do
    let r ← object res current
    pure (some r)
  else if eqStr type "string" then do
    let (r, cur) ← string current
    pure (some ⟨r, cur, []⟩)
  else if eqStr type "null" then
    pure (some ⟨Rule.valid .null Rule.any, current, []⟩)
  else
    pure (match cfg.types, type with
      | some ts, .str s => (lookupFirst ts s).map fun r => ⟨r, current, []⟩
      | _, _ => none)

/-- `joitype(type, format)` of the source: refine the type, dispatch on
it, look unknown names up among the caller-supplied custom types, assert
a rule was found, and apply strict mode as the final builder call. -/
def joitype (cfg : Cfg) (res : Resolver) (current : JSON) (type format : JSON) :
    Except Err Res := do
  let built ← joitypeSwitch cfg res current (refinedOf cfg type format)
  match built with
  | none => do
      let ct ← jget current "type"
      .error (.unresolvedType ct)
  | some r => pure ⟨Rule.strict cfg.strictMode r.rule, r.node, r.warns⟩

/-- The per-element loop of `resolvetype` for an array-valued type: each
type name is resolved with the shared format, threading the node. -/
def typesFold (cfg : Cfg) (res : Resolver) :
    List JSON → JSON → Except Err (List Rule × JSON × List JSON)
  | [], cur => .ok ([], cur, [])
  | t :: ts, cur => do
      let f ← jget cur "format"
      let r ← joitype cfg res cur t f
      let (rs, cur', ws) ← typesFold cfg res ts r.node
      .ok (r.rule :: rs, cur', r.warns ++ ws)

/-- The keyword decorations of `resolvetype`, applied in the order of the
typeDefinitionMap literal: description, title (label), default. -/
def decorate (cur : JSON) (js : Rule) : Except Err Rule := do
  let d ← jget cur "description"
  let js := if truthy d then Rule.description d js else js
  let ti ← jget cur "title"
  let js := if truthy ti then Rule.label ti js else js
  let df ← jget cur "default"
  pure (if truthy df then Rule.defaultV df js else js)

/-- `resolvetype(current)` of the source: an array-valued type becomes an
alternation of the per-name rules, a single type dispatches directly;
keyword decorations are layered on afterwards. -/
def resolvetype (cfg : Cfg) (res : Resolver) (current : JSON) :
    Except Err Res := do
  let t ← jget current "type"
  match t with
  | .arr ts => do
      let (rs, cur, ws) ← typesFold cfg res ts current
      let js ← decorate cur (Rule.alternatives rs)
      pure ⟨js, cur, ws⟩
  | _ => do
      let f ← jget current "format"
      let r ← joitype cfg res current t f
      let js ← decorate r.node r.rule
      pure ⟨js, r.node, r.warns⟩

/-- `resolveAnyOf(current)` of the source: asserts an array, resolves the
members and alternates them, without marking the result required. -/
def resolveAnyOf (res : Resolver) (current : JSON) : Except Err Res := do
  let a ← jget current "anyOf"
  match a with
  | .arr l => do
      let (rs, l', ws) ← mapThread res l
      pure ⟨Rule.tryW rs (Rule.alternatives []),
        jset current "anyOf" (.arr l'), ws⟩
  | _ => .error .shapeAnyOf

/-- `resolveOneOf(current)` of the source: as anyOf, but the alternation
is marked required. -/
def resolveOneOf (res : Resolver) (current : JSON) : Except Err Res := do
  let a ← jget current "oneOf"
  match a with
  | .arr l => do
      let (rs, l', ws) ← mapThread res l
      pure ⟨Rule.required (Rule.tryW rs (Rule.alternatives [])),
        jset current "oneOf" (.arr l'), ws⟩
  | _ => .error .shapeOneOf

/-- `resolveNot(current)` of the source: when the value matches the
alternation of the members the rule is forbidden, otherwise anything is
accepted. -/
def resolveNot (res : Resolver) (current : JSON) : Except Err Res := do
  let a ← jget current "not"
  match a with
  | .arr l => do
      let (rs, l', ws) ← mapThread res l
      pure ⟨Rule.whenW (Rule.tryW rs (Rule.alternatives []))
          (Rule.forbidden Rule.any) Rule.any (Rule.alternatives []),
        jset current "not" (.arr l'), ws⟩
  | _ => .error .shapeNot

/-- `resolveAllOf(current)` of the source: asserts an array, determines
the type of the first member, checks every member against it, merges and
re-resolves. The merged node is synthetic, so the node returned is the
input node. -/
def resolveAllOf (cfg : Cfg) (root : JSON) (res : Resolver) (current : JSON) :
    Except Err Res := do
  let a ← jget current "allOf"
  match a with
  | .arr l => do
      let t ← getSchemaType cfg root (l.headD .undef)
      checkAllOfMembers cfg root t l
      let merged ←
        if eqStr t "object" then mergeObject cfg root l
        else mergeArray cfg root l
      let r ← res merged
      pure ⟨r.rule, current, r.warns⟩
  | _ => .error .shapeAllOf

/-- `resolve(current)` of the source: the dispatcher. Keywords are tried
in the fixed order type, anyOf, allOf, oneOf, not, `$ref`, enum; a plain
string is shorthand for a type; anything else warns and accepts
anything. -/
def resolve (cfg : Cfg) (root : JSON) (fuel : Nat) (current : JSON) :
    Except Err Res :=
  match fuel with
  | 0 => .error .stackOverflow
  | k + 1 => do
      let r := fun m => resolve cfg root k m
      let t ← jget current "type"
      if truthy t then resolvetype cfg r current
      else do
      let a ← jget current "anyOf"
      if truthy a then resolveAnyOf r current
      else do
      let al ← jget current "allOf"
      if truthy al then resolveAllOf cfg root r current
      else do
      let o ← jget current "oneOf"
      if truthy o then resolveOneOf r current
      else do
      let nt ← jget current "not"
      if truthy nt then resolveNot r current
      else do
      let rf ← jget current "$ref"
      if truthy rf then
        match rf with
        | .str s => do
            let frag ← resolveref cfg root s
            let out ← r frag
            pure ⟨out.rule, current, out.warns⟩
        | _ => .error .typeErr
      else do
      let e ← jget current "enum"
      if truthy e then pure ⟨Rule.valid e Rule.any, current, []⟩
      else
        match current with
        | .str s => do
            let out ← resolvetype cfg r (.obj [("type", .str s)])
            pure ⟨out.rule, current, out.warns⟩
        | _ => pure ⟨Rule.any, current, [current]⟩

/-- The entry validation of `translate`: the schema must be an object
(arrays are rejected by the Joi object type) or a non-empty string (the
Joi string type rejects the empty string by default). -/
def schemaValidJS (schema : JSON) : Bool :=
  match schema with
  | .obj _ => true
  | .str s => s != ""
  | _ => false

/-- `translate(schema, options)` with an already-validated configuration:
validate the schema shape, then resolve the root against itself. -/
def translate (cfg : Cfg) (fuel : Nat) (schema : JSON) : Except Err Res :=
  if schemaValidJS schema then resolve cfg schema fuel schema
  else .error .configErr

/-! Observers on built rules, used to state properties. -/

/-- Whether the outermost builder call of a rule is `.required()`. -/
def isRequiredTop : Rule → Bool
  | .required _ => true
  | _ => false

/-- Whether a `.strict(...)` call was applied to the rule, looking through
the keyword decorations that `resolvetype` layers on afterwards. -/
def strictApplied : Rule → Bool
  | .strict _ _ => true
  | .description _ r => strictApplied r
  | .label _ r => strictApplied r
  | .defaultV _ r => strictApplied r
  | _ => false

mutual

/-- A sample validation semantics for rules, used to witness the
combinator-law properties: a value satisfies `any`, never satisfies
`forbidden` or a bare alternation, satisfies a `when` according to its
condition, satisfies a `try` when some member or the base matches, and
satisfies a string rule when it is a string; every other rule is treated
as unsatisfied. -/
def satDemo : Rule → JSON → Bool
  | .any, _ => true
  | .forbidden _, _ => false
  | .whenW c t e _, v => if satDemo c v then satDemo t v else satDemo e v
  | .tryW l b, v => satDemoAny l v || satDemo b v
  | .strict _ r, v => satDemo r v
  | .string, v => isStrB v
  | .boolean, v => isBoolB v
  | _, _ => false

/-- Does some rule of the list accept the value under `satDemo`? -/
def satDemoAny : List Rule → JSON → Bool
  | [], _ => false
  | r :: rs, v => satDemo r v || satDemoAny rs v

end

/-! Accessors describing schema nodes the way the specification speaks
about them, used to state the allOf-merge properties. -/

/-- The properties entries of a node (empty when not an object). -/
def propsOf (m : JSON) : List (String × JSON) :=
  match getkPure m "properties" with
  | .obj pl => pl
  | _ => []

/-- The required list of a node ([] when absent or not an array). -/
def reqOf (m : JSON) : List JSON :=
  match getkPure m "required" with
  | .arr rl => rl
  | _ => []

/-- The value the last member carrying a key contributes for it. -/
def lastWins (effs : List JSON) (key : String) : Option JSON :=
  effs.reverse.findSome? fun m => lookupFirst (propsOf m) key

/-! Notions used to state and prove the idempotence of resolution: which
keys each type-builder branch reads, equality of a key up to the
minLength defaulting the string builder performs, and stability of a
resolver. -/

/-- The node keys the builder selected by a refined type reads. -/
def joitypeReads (t : JSON) : List String :=
  if eqStr t "array" then
    ["items", "ordered", "additionalItems", "minItems", "maxItems",
      "uniqueItems"]
  else if eqStr t "integer" || eqStr t "number" then
    ["type", "minimum", "maximum", "exclusiveMinimum", "exclusiveMaximum",
      "multipleOf"]
  else if eqStr t "object" then
    ["properties", "required", "additionalProperties", "minProperties",
      "maxProperties"]
  else if eqStr t "string" then
    ["enum", "format", "pattern", "minLength", "maxLength", "minimum",
      "maximum"]
  else []

/-- The keys the branch for a refined type writes into the node (beyond
the minLength default of the string builder, which is tracked
separately). -/
def writesOf (t : JSON) : List String :=
  if eqStr t "array" then ["items", "ordered"]
  else if eqStr t "object" then ["properties", "additionalProperties"]
  else []

/-- Agreement of two nodes on one key, up to the string builder having
defaulted an absent minLength to 0 in the second node. -/
def quirkEq (m n : JSON) (k : String) : Prop :=
  getkPure n k = getkPure m k ∨
    (k = "minLength" ∧ getkPure m k = .undef ∧ getkPure n k = .num 0)

/-- Stability of a resolver: re-resolving a returned node reproduces the
same result, and a node that was an object stays one. -/
def HStab (res : Resolver) : Prop :=
  ∀ m out, res m = .ok out → res out.node = .ok out ∧
    (out.node = m ∨ (isObjB m = true ∧ isObjB out.node = true))

end Enjoi

namespace Enjoi

/-! Equality of JSON values is decidable; the boolean `JSON.beq` is sound
and reflexive. -/

mutual

theorem JSON.beq_refl : ∀ a : JSON, JSON.beq a a = true
  | .undef => rfl
  | .null => rfl
  | .bool a => by simp [JSON.beq]
  | .num a => by simp [JSON.beq]
  | .str a => by simp [JSON.beq]
  | .arr l => by simp [JSON.beq, JSON.beqList_refl l]
  | .obj l => by simp [JSON.beq, JSON.beqPairs_refl l]

theorem JSON.beqList_refl : ∀ l : List JSON, JSON.beqList l l = true
  | [] => rfl
  | a :: as => by simp [JSON.beqList, JSON.beq_refl a, JSON.beqList_refl as]

theorem JSON.beqPairs_refl : ∀ l : List (String × JSON), JSON.beqPairs l l = true
  | [] => rfl
  | (k, v) :: as => by
      simp [JSON.beqPairs, JSON.beq_refl v, JSON.beqPairs_refl as]

end

mutual

theorem JSON.beq_sound : ∀ a b : JSON, JSON.beq a b = true → a = b
  | .undef, b, h => by
      cases b <;> first | rfl | exact Bool.noConfusion h
  | .null, b, h => by
      cases b <;> first | rfl | exact Bool.noConfusion h
  | .bool a, b, h => by
      cases b <;>
        first
        | exact congrArg JSON.bool (by simpa [JSON.beq] using h)
        | exact Bool.noConfusion h
  | .num a, b, h => by
      cases b <;>
        first
        | exact congrArg JSON.num (by simpa [JSON.beq] using h)
        | exact Bool.noConfusion h
  | .str a, b, h => by
      cases b <;>
        first
        | exact congrArg JSON.str (by simpa [JSON.beq] using h)
        | exact Bool.noConfusion h
  | .arr l, b, h => by
      cases b <;>
        first
        | exact congrArg JSON.arr (JSON.beqList_sound l _ h)
        | exact Bool.noConfusion h
  | .obj l, b, h => by
      cases b <;>
        first
        | exact congrArg JSON.obj (JSON.beqPairs_sound l _ h)
        | exact Bool.noConfusion h

theorem JSON.beqList_sound : ∀ a b : List JSON, JSON.beqList a b = true → a = b
  | [], [], _ => rfl
  | [], _ :: _, h => Bool.noConfusion h
  | _ :: _, [], h => Bool.noConfusion h
  | a :: as, b :: bs, h => by
      simp only [JSON.beqList, Bool.and_eq_true] at h
      rw [JSON.beq_sound a b h.1, JSON.beqList_sound as bs h.2]

theorem JSON.beqPairs_sound :
    ∀ a b : List (String × JSON), JSON.beqPairs a b = true → a = b
  | [], [], _ => rfl
  | [], _ :: _, h => Bool.noConfusion h
  | _ :: _, [], h => Bool.noConfusion h
  | (k, v) :: as, (k', v') :: bs, h => by
      simp only [JSON.beqPairs, Bool.and_eq_true] at h
      obtain ⟨⟨hk, hv⟩, hrest⟩ := h
      rw [eq_of_beq hk, JSON.beq_sound v v' hv, JSON.beqPairs_sound as bs hrest]

end

theorem JSON.beq_iff (a b : JSON) : JSON.beq a b = true ↔ a = b :=
  ⟨JSON.beq_sound a b, fun he => he ▸ JSON.beq_refl a⟩

instance : DecidableEq JSON := fun a b =>
  decidable_of_iff (JSON.beq a b = true) (JSON.beq_iff a b)

theorem eqStr_iff (v : JSON) (s : String) : eqStr v s = true ↔ v = .str s :=
  JSON.beq_iff v (.str s)

/-! Basic lemmas about property reads and writes. -/

theorem lookupFirst_setPair_self {α : Type} (l : List (String × α)) (k : String)
    (v : α) : lookupFirst (setPair l k v) k = some v := by
  induction l with
  | nil => simp [setPair, lookupFirst]
  | cons kv rest ih =>
      obtain ⟨k', v'⟩ := kv
      by_cases h : k' = k <;> simp [setPair, lookupFirst, h, ih]

theorem lookupFirst_setPair_ne {α : Type} (l : List (String × α)) (k k' : String)
    (v : α) (h : k' ≠ k) :
    lookupFirst (setPair l k v) k' = lookupFirst l k' := by
  induction l with
  | nil => simp [setPair, lookupFirst, Ne.symm h]
  | cons kv rest ih =>
      obtain ⟨k'', v''⟩ := kv
      by_cases h2 : k'' = k
      · subst h2
        simp [setPair, lookupFirst, Ne.symm h]
      · simp [setPair, lookupFirst, h2, ih]

theorem setPair_setPair {α : Type} (l : List (String × α)) (k : String)
    (v v' : α) : setPair (setPair l k v) k v' = setPair l k v' := by
  induction l with
  | nil => simp [setPair]
  | cons kv rest ih =>
      obtain ⟨k'', v''⟩ := kv
      by_cases h : k'' = k <;> simp [setPair, h, ih]

theorem getkPure_jset_self (l : List (String × JSON)) (k : String) (v : JSON) :
    getkPure (jset (.obj l) k v) k = v := by
  simp [jset, getkPure, lookupFirst_setPair_self]

theorem getkPure_jset_ne (n : JSON) (k k' : String) (v : JSON) (h : k' ≠ k) :
    getkPure (jset n k v) k' = getkPure n k' := by
  cases n <;> simp [jset, getkPure, lookupFirst_setPair_ne _ _ _ _ h]

theorem jset_jset_same (n : JSON) (k : String) (v v' : JSON) :
    jset (jset n k v) k v' = jset n k v' := by
  cases n <;> simp [jset, setPair_setPair]

/-- `jget` on an object or non-nullish value is a pure read. -/
theorem jget_ok (n : JSON) (k : String) (h : n ≠ .undef ∧ n ≠ .null) :
    jget n k = .ok (getkPure n k) := by
  cases n <;> simp_all [jget]

/-- C10 support: the entry validation of `translate` only admits truthy
schemas (objects, or non-empty strings). -/
theorem schemaValidJS_truthy (root : JSON) (h : schemaValidJS root = true) :
    truthy root = true := by
  cases root <;> simp_all [schemaValidJS, truthy]

/-- C10: the `Can not find schema reference` assertion of the reference
resolver is unreachable whenever the root schema satisfies the entry
validation of `translate`: for every reference URI and every (possibly
absent or empty) sub-schema registry, the resolver falls back to the
truthy root schema and succeeds. -/
theorem c10_refNotFound_unreachable (cfg : Cfg) (root : JSON) (value : String)
    (h : schemaValidJS root = true) :
    ∃ frag, resolveref cfg root value = .ok frag := by
  have hr : truthy root = true := schemaValidJS_truthy root h
  unfold resolveref
  rcases splitRef value with ⟨id, path⟩
  by_cases h0 :
      truthy (if id ≠ "" ∧ truthy cfg.subSchemas then
        if truthy (getkPure cfg.subSchemas id) then getkPure cfg.subSchemas id
        else getkPure cfg.subSchemas (id.dropRight 1)
      else .undef) = true
  · simp only [h0, if_true]
    exact ⟨_, rfl⟩
  · simp only [Bool.not_eq_true] at h0
    simp only [h0, Bool.false_eq_true, if_false, hr, if_true]
    exact ⟨_, rfl⟩

/-- C10 witness: with an empty configuration and object root, a dangling
reference still resolves to a candidate (the walk then yields undefined,
whose resolution is a later failure, not this assertion). -/
theorem c10_witness :
    schemaValidJS (.obj []) = true ∧
    ∃ frag, resolveref {} (.obj []) "#/definitions/x" = .ok frag :=
  ⟨rfl, c10_refNotFound_unreachable {} (.obj []) "#/definitions/x" rfl⟩

/-! Reduction lemmas for the `Except` monad. -/

theorem ok_bind {ε α β : Type} (a : α) (f : α → Except ε β) :
    ((Except.ok a : Except ε α) >>= f) = f a := rfl

theorem error_bind {ε α β : Type} (e : ε) (f : α → Except ε β) :
    ((Except.error e : Except ε α) >>= f) = .error e := rfl

theorem pure_eq_ok {ε α : Type} (a : α) :
    (pure a : Except ε α) = .ok a := rfl

/-- C1: the dispatcher classifies a node by its keys in the fixed priority
type, anyOf, allOf, oneOf, not, `$ref`, enum, then treats a plain string
as a type shorthand, and otherwise warns about the node and returns the
unconstrained `Joi.any()` rule rather than failing. -/
theorem c1_classification_order (cfg : Cfg) (root : JSON) (k : Nat) (n : JSON)
    (hn : (isObjB n || isStrB n) = true) :
    resolve cfg root (k + 1) n =
      (if truthy (getkPure n "type") then
        resolvetype cfg (resolve cfg root k) n
      else if truthy (getkPure n "anyOf") then
        resolveAnyOf (resolve cfg root k) n
      else if truthy (getkPure n "allOf") then
        resolveAllOf cfg root (resolve cfg root k) n
      else if truthy (getkPure n "oneOf") then
        resolveOneOf (resolve cfg root k) n
      else if truthy (getkPure n "not") then
        resolveNot (resolve cfg root k) n
      else if truthy (getkPure n "$ref") then
        (match getkPure n "$ref" with
          | .str s => do
              let frag ← resolveref cfg root s
              let out ← resolve cfg root k frag
              pure ⟨out.rule, n, out.warns⟩
          | _ => .error .typeErr)
      else if truthy (getkPure n "enum") then
        .ok ⟨.valid (getkPure n "enum") .any, n, []⟩
      else
        match n with
        | .str s => do
            let out ← resolvetype cfg (resolve cfg root k) (.obj [("type", .str s)])
            pure ⟨out.rule, n, out.warns⟩
        | _ => .ok ⟨.any, n, [n]⟩) := by
  cases n <;> first | rfl | exact Bool.noConfusion hn

/-- C1 witness: an unclassifiable node resolves to the unconstrained rule
with a warning recorded for it. -/
theorem c1_witness :
    (isObjB (.obj [("foo", .str "bar")]) || isStrB (.obj [("foo", .str "bar")])) = true ∧
    resolve {} (.obj []) 1 (.obj [("foo", .str "bar")]) =
      .ok ⟨.any, .obj [("foo", .str "bar")], [.obj [("foo", .str "bar")]]⟩ := by
  refine ⟨rfl, ?_⟩
  rw [c1_classification_order {} (.obj []) 0 (.obj [("foo", .str "bar")]) rfl]
  rfl

/-- C5: the anyOf resolver never marks its alternation required and the
oneOf resolver always does; each fails with its shape assertion when the
keyword value is not an array. -/
theorem c5_anyOf_oneOf_required (res : Resolver) (n : JSON) :
    (∀ out, resolveAnyOf res n = .ok out → isRequiredTop out.rule = false) ∧
    (∀ v, jget n "anyOf" = .ok v → isArrB v = false →
      resolveAnyOf res n = .error .shapeAnyOf) ∧
    (∀ out, resolveOneOf res n = .ok out → isRequiredTop out.rule = true) ∧
    (∀ v, jget n "oneOf" = .ok v → isArrB v = false →
      resolveOneOf res n = .error .shapeOneOf) := by
  refine ⟨?_, ?_, ?_, ?_⟩
  · intro out h
    unfold resolveAnyOf at h
    cases hj : jget n "anyOf" with
    | error e => rw [hj, error_bind] at h; exact Except.noConfusion h
    | ok a =>
        rw [hj, ok_bind] at h
        split at h
        · rename_i l
          cases hm : mapThread res l with
          | error e => rw [hm, error_bind] at h; exact Except.noConfusion h
          | ok t =>
              obtain ⟨rs, l', ws⟩ := t
              rw [hm, ok_bind] at h
              cases h
              rfl
        · exact Except.noConfusion h
  · intro v hj hv
    unfold resolveAnyOf
    rw [hj, ok_bind]
    cases v <;> first | rfl | exact Bool.noConfusion hv
  · intro out h
    unfold resolveOneOf at h
    cases hj : jget n "oneOf" with
    | error e => rw [hj, error_bind] at h; exact Except.noConfusion h
    | ok a =>
        rw [hj, ok_bind] at h
        split at h
        · rename_i l
          cases hm : mapThread res l with
          | error e => rw [hm, error_bind] at h; exact Except.noConfusion h
          | ok t =>
              obtain ⟨rs, l', ws⟩ := t
              rw [hm, ok_bind] at h
              cases h
              rfl
        · exact Except.noConfusion h
  · intro v hj hv
    unfold resolveOneOf
    rw [hj, ok_bind]
    cases v <;> first | rfl | exact Bool.noConfusion hv

/-- C5 witness: at concrete inputs, the anyOf alternation is optional, the
oneOf alternation is required, and a non-array anyOf value raises the
shape assertion. -/
theorem c5_witness :
    isRequiredTop (Rule.tryW [.strict false .boolean] (.alternatives [])) = false ∧
    isRequiredTop (Rule.required (.tryW [.strict false .boolean] (.alternatives []))) = true ∧
    resolveAnyOf (resolve {} (.obj []) 1) (.obj [("anyOf", .num 5)]) = .error .shapeAnyOf := by
  refine ⟨?_, ?_, ?_⟩
  · exact (c5_anyOf_oneOf_required (resolve {} (.obj []) 1)
      (.obj [("anyOf", .arr [.obj [("type", .str "boolean")]])])).1 _ rfl
  · exact (c5_anyOf_oneOf_required (resolve {} (.obj []) 1)
      (.obj [("oneOf", .arr [.obj [("type", .str "boolean")]])])).2.2.1 _ rfl
  · exact (c5_anyOf_oneOf_required (resolve {} (.obj []) 1)
      (.obj [("anyOf", .num 5)])).2.1 (.num 5) rfl rfl

/-- C7 counterexample: with strictMode enabled, resolving an enum-only
node yields a rule with no `.strict(...)` application at all, so the flag
is not propagated onto every built rule. -/
theorem c7_counterexample :
    resolve { strictMode := true } (.obj []) 1 (.obj [("enum", .arr [.num 1])]) =
      .ok ⟨.valid (.arr [.num 1]) .any, .obj [("enum", .arr [.num 1])], []⟩ ∧
    strictApplied (Rule.valid (.arr [.num 1]) .any) = false :=
  ⟨rfl, rfl⟩

/-- C7 amended: strictMode is applied, as the final builder call before
the keyword decorations, to every rule built by the type dispatcher
`joitype` (including custom types); rules produced by the enum-only
branch, the combinator resolvers, and the accept-anything fallback do not
receive it. -/
theorem c7_strict_on_joitype (cfg : Cfg) (res : Resolver)
    (current type format : JSON) (out : Res)
    (h : joitype cfg res current type format = .ok out) :
    ∃ b, out.rule = .strict cfg.strictMode b := by
  unfold joitype at h
  cases hs : joitypeSwitch cfg res current (refinedOf cfg type format) with
  | error e => rw [hs, error_bind] at h; exact Except.noConfusion h
  | ok built =>
      rw [hs, ok_bind] at h
      split at h
      · cases hj : jget current "type" with
        | error e => rw [hj, error_bind] at h; exact Except.noConfusion h
        | ok ct => rw [hj, ok_bind] at h; exact Except.noConfusion h
      · rename_i r
        cases h
        exact ⟨r.rule, rfl⟩

/-- C7 witness: a boolean type build carries the strict call. -/
theorem c7_witness :
    joitype { strictMode := true } (fun _ => .error .stackOverflow)
        (.obj [("type", .str "boolean")]) (.str "boolean") .undef =
      .ok ⟨.strict true .boolean, .obj [("type", .str "boolean")], []⟩ ∧
    ∃ b, (Res.mk (.strict true .boolean) (.obj [("type", .str "boolean")]) []).rule =
      .strict true b :=
  ⟨rfl, c7_strict_on_joitype { strictMode := true } (fun _ => .error .stackOverflow)
    (.obj [("type", .str "boolean")]) (.str "boolean") .undef _ rfl⟩

/-- C8 counterexample: resolving a plain string-typed node rewrites the
node itself, adding `minLength = 0`; schema nodes are not read-only. -/
theorem c8_counterexample :
    resolve {} (.obj []) 2 (.obj [("type", .str "string")]) =
      .ok ⟨.strict false (.min (.num 0) (.allow (.str "") .string)),
        .obj [("type", .str "string"), ("minLength", .num 0)], []⟩ ∧
    (JSON.obj [("type", .str "string"), ("minLength", .num 0)] ≠
      .obj [("type", .str "string")]) :=
  ⟨rfl, by decide⟩

/-- The node update performed by `regularString`: nothing, or exactly the
minLength default. -/
theorem regularString_node (current : JSON) (js r : Rule) (n' : JSON)
    (h : regularString current js = .ok (r, n')) :
    n' = current ∨
      (jget current "minLength" = .ok .undef ∧
        n' = jset current "minLength" (.num 0)) := by
  unfold regularString at h
  cases hp : jget current "pattern" with
  | error e => rw [hp, error_bind] at h; exact Except.noConfusion h
  | ok p =>
      rw [hp, ok_bind] at h
      cases hml : jget current "minLength" with
      | error e => rw [hml, error_bind] at h; exact Except.noConfusion h
      | ok ml0 =>
          rw [hml, ok_bind] at h
          by_cases hu : isUndefB ml0 = true
          · rw [if_pos hu] at h
            dsimp only at h
            have hml0 : ml0 = .undef := by
              cases ml0 <;> first | rfl | exact Bool.noConfusion hu
            cases hg : jget (jset current "minLength" (.num 0)) "minLength" with
            | error e => rw [hg, error_bind] at h; exact Except.noConfusion h
            | ok ml =>
                rw [hg, ok_bind] at h
                cases hx : jget (jset current "minLength" (.num 0)) "maxLength" with
                | error e => rw [hx, error_bind] at h; exact Except.noConfusion h
                | ok mxl =>
                    rw [hx, ok_bind] at h
                    cases h
                    exact .inr ⟨by rw [hml0], rfl⟩
          · rw [if_neg hu] at h
            dsimp only at h
            cases hg : jget current "minLength" with
            | error e => rw [hg, error_bind] at h; exact Except.noConfusion h
            | ok ml =>
                rw [hg, ok_bind] at h
                cases hx : jget current "maxLength" with
                | error e => rw [hx, error_bind] at h; exact Except.noConfusion h
                | ok mxl =>
                    rw [hx, ok_bind] at h
                    cases h
                    exact .inl rfl

/-- C8 amended: resolution treats every schema node as read-only except
for the string builder, which writes `minLength = 0` onto a node lacking
it (when not short-circuited by enum or a date/date-time/binary format);
no key other than minLength is added, removed or rewritten there. -/
theorem c8_string_mutation_only (current : JSON) (r : Rule) (n' : JSON)
    (h : string current = .ok (r, n')) :
    (n' = current ∨
      (jget current "minLength" = .ok .undef ∧
        n' = jset current "minLength" (.num 0))) ∧
    (∀ key, key ≠ "minLength" → getkPure n' key = getkPure current key) := by
  have hnode : n' = current ∨
      (jget current "minLength" = .ok .undef ∧
        n' = jset current "minLength" (.num 0)) := by
    unfold string at h
    cases he : jget current "enum" with
    | error e => rw [he, error_bind] at h; exact Except.noConfusion h
    | ok e =>
        rw [he, ok_bind] at h
        by_cases ht : truthy e = true
        · rw [if_pos ht] at h
          cases h
          exact .inl rfl
        · rw [if_neg ht] at h
          cases hf : jget current "format" with
          | error e2 => rw [hf, error_bind] at h; exact Except.noConfusion h
          | ok f =>
              rw [hf, ok_bind] at h
              by_cases hd : (eqStr f "date" || eqStr f "date-time") = true
              · rw [if_pos hd] at h
                cases hdt : date current with
                | error e2 => rw [hdt, error_bind] at h; exact Except.noConfusion h
                | ok rd =>
                    rw [hdt, ok_bind] at h
                    cases h
                    exact .inl rfl
              · rw [if_neg hd] at h
                by_cases hb : eqStr f "binary" = true
                · rw [if_pos hb] at h
                  cases hbn : binary current with
                  | error e2 => rw [hbn, error_bind] at h; exact Except.noConfusion h
                  | ok rb =>
                      rw [hbn, ok_bind] at h
                      cases h
                      exact .inl rfl
                · rw [if_neg hb] at h
                  exact regularString_node current _ r n' h
  refine ⟨hnode, ?_⟩
  rcases hnode with rfl | ⟨hml, rfl⟩
  · intro key hk; rfl
  · intro key hk
    exact getkPure_jset_ne current "minLength" key (.num 0) hk

/-- C8 witness: the amended statement at the concrete mutated node. -/
theorem c8_witness :
    string (.obj [("type", .str "string")]) =
      .ok (.min (.num 0) (.allow (.str "") .string),
        .obj [("type", .str "string"), ("minLength", .num 0)]) ∧
    ((JSON.obj [("type", .str "string"), ("minLength", .num 0)] =
        .obj [("type", .str "string")]) ∨
      (jget (.obj [("type", .str "string")]) "minLength" = .ok .undef ∧
        JSON.obj [("type", .str "string"), ("minLength", .num 0)] =
          jset (.obj [("type", .str "string")]) "minLength" (.num 0))) :=
  ⟨rfl, (c8_string_mutation_only (.obj [("type", .str "string")]) _ _ rfl).1⟩

/-- C2 counterexample: an empty allOf list does not fail with the merge
type assertion; reading the type of the missing first member throws the
JS TypeError instead. -/
theorem c2_counterexample :
    resolveAllOf {} (.obj []) (fun _ => .error .stackOverflow)
        (.obj [("allOf", .arr [])]) = .error .typeErr ∧
    Err.typeErr ≠ Err.mergeType :=
  ⟨rfl, fun h => Err.noConfusion h⟩

/-- The member check of `resolveAllOf`, characterized: when the type of
every member is determinable, the check succeeds exactly when every
member type equals the reference type, which is array or object, and the
only failure it raises is the merge type assertion. -/
theorem checkAllOf_characterization (cfg : Cfg) (root : JSON) (t : JSON)
    (l : List JSON)
    (hall : ∀ m ∈ l, ∃ tm, getSchemaType cfg root m = .ok tm) :
    (checkAllOfMembers cfg root t l = .ok () ↔
      ∀ m ∈ l, getSchemaType cfg root m = .ok t ∧
        (t = .str "array" ∨ t = .str "object")) ∧
    (checkAllOfMembers cfg root t l = .ok () ∨
      checkAllOfMembers cfg root t l = .error .mergeType) := by
  induction l with
  | nil => exact ⟨by simp [checkAllOfMembers], .inl rfl⟩
  | cons m rest ih =>
      obtain ⟨tm, hm⟩ := hall m (List.mem_cons_self m rest)
      have ihrest := ih (fun m' hm' => hall m' (List.mem_cons_of_mem m hm'))
      unfold checkAllOfMembers
      rw [hm, ok_bind]
      by_cases hc : ((eqStr tm "array" || eqStr tm "object") && JSON.beq t tm) = true
      · rw [if_pos hc]
        obtain ⟨horb, hbt⟩ :
            (eqStr tm "array" || eqStr tm "object") = true ∧
              JSON.beq t tm = true := by simpa using hc
        have ht : t = tm := JSON.beq_sound _ _ hbt
        constructor
        · rw [ihrest.1]
          constructor
          · intro hrest m' hm'
            rcases List.mem_cons.mp hm' with rfl | hm'
            · refine ⟨by rw [ht]; exact hm, ?_⟩
              rcases (by simpa using horb :
                  eqStr tm "array" = true ∨ eqStr tm "object" = true) with h1 | h1
              · exact .inl (by rw [ht]; exact (eqStr_iff _ _).mp h1)
              · exact .inr (by rw [ht]; exact (eqStr_iff _ _).mp h1)
            · exact hrest m' hm'
          · intro hful m' hm'
            exact hful m' (List.mem_cons_of_mem m hm')
        · exact ihrest.2
      · rw [if_neg hc]
        refine ⟨⟨fun habs => Except.noConfusion habs, fun hful => ?_⟩, .inr rfl⟩
        obtain ⟨hmt, horb⟩ := hful m (List.mem_cons_self m rest)
        have htm : tm = t := by
          rw [hm] at hmt
          exact Except.ok.inj hmt
        subst htm
        apply absurd _ hc
        rcases horb with h1 | h1 <;>
          simp [h1, eqStr, JSON.beq, JSON.beq_refl]

/-- C2 amended: for every non-empty allOf list all of whose member types
are determinable (own type, or type behind the `$ref`), the resolver
fails with the merge type assertion unless every member type equals the
type of the first member and that type is array or object; only in that
case is the merged node built and re-resolved. -/
theorem c2_allOf_merge_check (cfg : Cfg) (root : JSON) (res : Resolver)
    (n : JSON) (l : List JSON) (t0 : JSON)
    (hl : jget n "allOf" = .ok (.arr l)) (_hne : l ≠ [])
    (h0 : getSchemaType cfg root (l.headD .undef) = .ok t0)
    (hall : ∀ m ∈ l, ∃ t, getSchemaType cfg root m = .ok t) :
    (¬ (∀ m ∈ l, getSchemaType cfg root m = .ok t0 ∧
        (t0 = .str "array" ∨ t0 = .str "object")) →
      resolveAllOf cfg root res n = .error .mergeType) ∧
    ((∀ m ∈ l, getSchemaType cfg root m = .ok t0 ∧
        (t0 = .str "array" ∨ t0 = .str "object")) →
      resolveAllOf cfg root res n = (do
        let merged ←
          if eqStr t0 "object" then mergeObject cfg root l
          else mergeArray cfg root l
        let out ← res merged
        pure ⟨out.rule, n, out.warns⟩)) := by
  have hchar := checkAllOf_characterization cfg root t0 l hall
  constructor
  · intro hbad
    unfold resolveAllOf
    rw [hl, ok_bind]
    dsimp only
    rw [h0, ok_bind]
    rcases hchar.2 with hok | herr
    · exact absurd (hchar.1.mp hok) hbad
    · rw [herr, error_bind]
  · intro hgood
    unfold resolveAllOf
    rw [hl, ok_bind]
    dsimp only
    rw [h0, ok_bind, hchar.1.mpr hgood, ok_bind]

/-- C2 witness: two object-typed members pass the check and the merged
object node is resolved. -/
theorem c2_witness :
    resolveAllOf {} (.obj []) (resolve {} (.obj []) 3)
        (.obj [("allOf", .arr [.obj [("type", .str "object")],
          .obj [("type", .str "object")]])]) =
      .ok ⟨.strict false (.object (some [])),
        .obj [("allOf", .arr [.obj [("type", .str "object")],
          .obj [("type", .str "object")]])], []⟩ := by
  rw [(c2_allOf_merge_check {} (.obj []) (resolve {} (.obj []) 3)
      (.obj [("allOf", .arr [.obj [("type", .str "object")],
        .obj [("type", .str "object")]])])
      [.obj [("type", .str "object")], .obj [("type", .str "object")]]
      (.str "object") rfl (by simp) rfl ?hall).2 ?hgood
    ]
  · rfl
  case hall =>
    intro m hm
    rcases List.mem_cons.mp hm with rfl | hm2
    · exact ⟨_, rfl⟩
    rcases List.mem_cons.mp hm2 with rfl | h3
    · exact ⟨_, rfl⟩
    · simp at h3
  case hgood =>
    intro m hm
    rcases List.mem_cons.mp hm with rfl | hm2
    · exact ⟨rfl, .inr rfl⟩
    rcases List.mem_cons.mp hm2 with rfl | h3
    · exact ⟨rfl, .inr rfl⟩
    · simp at h3

/-- C4 counterexample: a property key that is not listed in any required
list (there is no required list at all) still produces a rule marked
required when its child schema is a oneOf, so not every unlisted key
yields an optional rule. -/
theorem c4_counterexample :
    resolveproperties (resolve {} (.obj []) 2)
        (.obj [("properties", .obj [("a", .obj [("oneOf",
          .arr [.obj [("type", .str "boolean")]])])])]) =
      .ok (some [("a", .required (.tryW [.strict false .boolean] (.alternatives [])))],
        .obj [("properties", .obj [("a", .obj [("oneOf",
          .arr [.obj [("type", .str "boolean")]])])])],
        []) ∧
    jget (.obj [("properties", .obj [("a", .obj [("oneOf",
        .arr [.obj [("type", .str "boolean")]])])])]) "required" = .ok .undef ∧
    isRequiredTop (.required (.tryW [.strict false .boolean] (.alternatives []))) = true :=
  ⟨rfl, rfl, rfl⟩

/-- The required marking against an array-valued required list is exactly
membership of the key. -/
theorem propRule_arr (R : List JSON) (key : String) (r : Rule) :
    propRule (.arr R) key r =
      .ok (if (JSON.str key) ∈ R then .required r else r) := by
  unfold propRule
  rw [if_pos (show truthy (.arr R) = true from rfl),
    show requiredCheck (.arr R) key =
      .ok (R.any fun x => JSON.beq x (.str key)) from rfl, ok_bind]
  exact congrArg Except.ok
    (if_congr (by simp [List.any_eq_true, JSON.beq_iff]) rfl rfl)

/-- The properties iteration, characterized against an array-valued
required list: keys untouched by the entries keep their accumulator
binding, and every entry key is bound to its resolved child rule, wrapped
required exactly when the key is listed. -/
theorem propsFold_arr_spec (res : Resolver) (R : List JSON) :
    ∀ (es : List (String × JSON)) (acc m : List (String × Rule))
      (es' : List (String × JSON)) (ws : List JSON),
      (es.map Prod.fst).Nodup →
      propsFold res (.arr R) acc es = .ok (m, es', ws) →
      (∀ key, (∀ p ∈ es, p.1 ≠ key) →
        lookupFirst m key = lookupFirst acc key) ∧
      (∀ key v, lookupFirst es key = some v →
        ∃ out, res v = .ok out ∧
          lookupFirst m key =
            some (if (JSON.str key) ∈ R then .required out.rule else out.rule))
  | [], acc, m, es', ws, _, h => by
      cases h
      exact ⟨fun key _ => rfl, fun key v hv => by simp [lookupFirst] at hv⟩
  | (key0, v0) :: rest, acc, m, es', ws, hnd, h => by
      unfold propsFold at h
      cases hr : res v0 with
      | error e => rw [hr, error_bind] at h; exact Except.noConfusion h
      | ok out =>
          rw [hr, ok_bind, propRule_arr, ok_bind] at h
          cases hfold : propsFold res (.arr R)
              (setPair acc key0
                (if (JSON.str key0) ∈ R then .required out.rule else out.rule))
              rest with
          | error e => rw [hfold, error_bind] at h; exact Except.noConfusion h
          | ok t =>
              obtain ⟨m2, entries2, ws2⟩ := t
              rw [hfold, ok_bind] at h
              cases h
              have hnotin : key0 ∉ rest.map Prod.fst :=
                (List.nodup_cons.mp (by simpa using hnd)).1
              have hnd' : (rest.map Prod.fst).Nodup :=
                (List.nodup_cons.mp (by simpa using hnd)).2
              obtain ⟨ihframe, ihsound⟩ :=
                propsFold_arr_spec res R rest _ _ _ _ hnd' hfold
              constructor
              · intro key hkey
                have h1 : ∀ p ∈ rest, p.1 ≠ key :=
                  fun p hp => hkey p (List.mem_cons_of_mem _ hp)
                have h2 : key0 ≠ key := hkey (key0, v0) (List.mem_cons_self _ _)
                rw [ihframe key h1,
                  lookupFirst_setPair_ne _ _ _ _ (Ne.symm h2)]
              · intro key v hv
                by_cases hk : key0 = key
                · subst hk
                  have hv0 : v = v0 := by
                    simpa [lookupFirst] using hv.symm
                  subst hv0
                  refine ⟨out, hr, ?_⟩
                  have hfr : ∀ p ∈ rest, p.1 ≠ key0 := by
                    intro p hp hcontra
                    exact hnotin (hcontra ▸ List.mem_map_of_mem Prod.fst hp)
                  rw [ihframe key0 hfr, lookupFirst_setPair_self]
                · have hv' : lookupFirst rest key = some v := by
                    simpa [lookupFirst, hk] using hv
                  exact ihsound key v hv'

/-- C4 amended: with an array-valued required list, each property key
listed in it produces its child rule with a required mark appended, and
each key not listed gets the child rule unchanged (which can itself
already be required, for instance for a oneOf child). -/
theorem c4_required_iff_listed (res : Resolver) (n : JSON)
    (P : List (String × JSON)) (R : List JSON) (m : List (String × Rule))
    (n' : JSON) (ws : List JSON)
    (hP : jget n "properties" = .ok (.obj P))
    (hR : jget n "required" = .ok (.arr R))
    (hnd : (P.map Prod.fst).Nodup)
    (h : resolveproperties res n = .ok (some m, n', ws)) :
    ∀ key v, lookupFirst P key = some v →
      ∃ out, res v = .ok out ∧
        lookupFirst m key =
          some (if (JSON.str key) ∈ R then .required out.rule else out.rule) := by
  unfold resolveproperties at h
  rw [hP, ok_bind, if_pos (show isObjectJS (.obj P) = true from rfl),
    hR, ok_bind] at h
  cases hfold : propsFold res (.arr R) [] (jsEntries (.obj P)) with
  | error e => rw [hfold, error_bind] at h; exact Except.noConfusion h
  | ok t =>
      obtain ⟨m2, entries2, ws2⟩ := t
      rw [hfold, ok_bind] at h
      cases h
      exact fun key v hv =>
        (propsFold_arr_spec res R (jsEntries (.obj P)) [] _ _ _
          hnd hfold).2 key v hv

/-- C4 witness: with properties a, b and required list [a], the key a is
wrapped required and b is left as built. -/
theorem c4_witness :
    (∃ out, resolve {} (.obj []) 2 (.obj [("type", .str "boolean")]) = .ok out ∧
      lookupFirst [("a", Rule.required (.strict false .boolean)),
          ("b", Rule.strict false .boolean)] "a" =
        some (if (JSON.str "a") ∈ [JSON.str "a"] then .required out.rule
          else out.rule)) ∧
    (∃ out, resolve {} (.obj []) 2 (.obj [("type", .str "boolean")]) = .ok out ∧
      lookupFirst [("a", Rule.required (.strict false .boolean)),
          ("b", Rule.strict false .boolean)] "b" =
        some (if (JSON.str "b") ∈ [JSON.str "a"] then .required out.rule
          else out.rule)) :=
  ⟨c4_required_iff_listed (resolve {} (.obj []) 2)
      (.obj [("properties", .obj [("a", .obj [("type", .str "boolean")]),
        ("b", .obj [("type", .str "boolean")])]), ("required", .arr [.str "a"])])
      [("a", .obj [("type", .str "boolean")]), ("b", .obj [("type", .str "boolean")])]
      [.str "a"]
      [("a", Rule.required (.strict false .boolean)), ("b", Rule.strict false .boolean)]
      (.obj [("properties", .obj [("a", .obj [("type", .str "boolean")]),
        ("b", .obj [("type", .str "boolean")])]), ("required", .arr [.str "a"])])
      [] rfl rfl (by decide) rfl "a" (.obj [("type", .str "boolean")]) rfl,
    c4_required_iff_listed (resolve {} (.obj []) 2)
      (.obj [("properties", .obj [("a", .obj [("type", .str "boolean")]),
        ("b", .obj [("type", .str "boolean")])]), ("required", .arr [.str "a"])])
      [("a", .obj [("type", .str "boolean")]), ("b", .obj [("type", .str "boolean")])]
      [.str "a"]
      [("a", Rule.required (.strict false .boolean)), ("b", Rule.strict false .boolean)]
      (.obj [("properties", .obj [("a", .obj [("type", .str "boolean")]),
        ("b", .obj [("type", .str "boolean")])]), ("required", .arr [.str "a"])])
      [] rfl rfl (by decide) rfl "b" (.obj [("type", .str "boolean")]) rfl⟩

/-- Keys carried by no pair of an association list look up to nothing. -/
theorem lookupFirst_eq_none {α : Type} :
    ∀ (l : List (String × α)) (k : String),
      (∀ p ∈ l, p.1 ≠ k) → lookupFirst l k = none
  | [], _, _ => rfl
  | (k', v) :: rest, k, h => by
      have h1 : k' ≠ k := h (k', v) (List.mem_cons_self _ _)
      simp [lookupFirst, h1,
        lookupFirst_eq_none rest k (fun p hp => h p (List.mem_cons_of_mem _ hp))]

/-- Object.assign lookup: the source wins over the target on every key it
carries (source keys assumed unique, as JS object keys are). -/
theorem lookup_objAssign :
    ∀ (s t : List (String × JSON)) (key : String),
      (s.map Prod.fst).Nodup →
      lookupFirst (objAssign t s) key =
        (lookupFirst s key).or (lookupFirst t key)
  | [], t, key, _ => by simp [objAssign, lookupFirst, Option.or]
  | (k, v) :: rest, t, key, hnd => by
      have hnotin : k ∉ rest.map Prod.fst :=
        (List.nodup_cons.mp (by simpa using hnd)).1
      have hnd' : (rest.map Prod.fst).Nodup :=
        (List.nodup_cons.mp (by simpa using hnd)).2
      rw [show objAssign t ((k, v) :: rest) = objAssign (setPair t k v) rest
        from rfl]
      rw [lookup_objAssign rest (setPair t k v) key hnd']
      by_cases hk : k = key
      · subst hk
        rw [lookupFirst_eq_none rest k
          (fun p hp hc => hnotin (hc ▸ List.mem_map_of_mem Prod.fst hp))]
        simp [lookupFirst, lookupFirst_setPair_self, Option.or]
      · rw [lookupFirst_setPair_ne t k key v (Ne.symm hk)]
        simp [lookupFirst, hk]

/-- A successful property read is the pure read. -/
theorem jget_to_getkPure (n : JSON) (k : String) (v : JSON)
    (h : jget n k = .ok v) : getkPure n k = v := by
  cases n <;> simp_all [jget]

/-- The mergeObject loop, characterized: the accumulated properties give
the last member carrying a key precedence over earlier members and the
initial accumulator, and the required lists are concatenated in member
order. -/
theorem mergeObjectFold_spec (cfg : Cfg) (root : JSON) :
    ∀ (l effs : List JSON) (props0 : List (String × JSON)) (req0 : List JSON),
      List.Forall₂ (fun it eff => derefItem cfg root it = .ok eff) l effs →
      (∀ eff ∈ effs,
        ((∃ pl, jget eff "properties" = .ok (.obj pl) ∧
            (pl.map Prod.fst).Nodup) ∨
          jget eff "properties" = .ok .undef) ∧
        (∃ rv, jget eff "required" = .ok rv ∧ (isArrB rv = true ∨ rv = .undef))) →
      ∃ props req,
        mergeObjectFold cfg root l props0 req0 = .ok (props, req) ∧
        (∀ key, lookupFirst props key =
          (lastWins effs key).or (lookupFirst props0 key)) ∧
        req = req0 ++ (effs.map reqOf).flatten
  | [], effs, props0, req0, hd, _ => by
      cases hd
      exact ⟨props0, req0, rfl,
        fun key => by simp [lastWins, Option.or], by simp⟩
  | it :: l', effs, props0, req0, hd, heff => by
      cases hd with
      | cons hde hrest =>
          rename_i eff effs'
          obtain ⟨hpd, ⟨rv, hrv, hrvshape⟩⟩ :=
            heff eff (List.mem_cons_self _ _)
          have heff' := fun e he => heff e (List.mem_cons_of_mem _ he)
          have hre : reqOf eff = concatJS rv := by
            have hg := jget_to_getkPure _ _ _ hrv
            rcases hrvshape with harr | rfl
            · cases rv <;> try exact Bool.noConfusion harr
              case arr rl => simp [reqOf, hg, concatJS]
            · simp [reqOf, hg, concatJS, truthy]
          rcases hpd with ⟨pl, hp, hplnd⟩ | hp
          · obtain ⟨props, req, hfold, hlook, hreq⟩ :=
              mergeObjectFold_spec cfg root l' effs'
                (objAssign props0 pl) (req0 ++ concatJS rv) hrest heff'
            refine ⟨props, req, ?_, ?_, ?_⟩
            · unfold mergeObjectFold
              rw [hde, ok_bind, hp, ok_bind]
              dsimp only
              rw [hrv, ok_bind]
              exact hfold
            · intro key
              rw [hlook key, lookup_objAssign pl props0 key hplnd,
                ← Option.or_assoc]
              congr 1
              unfold lastWins
              rw [show (eff :: effs').reverse = effs'.reverse ++ [eff]
                from by simp, List.findSome?_append]
              congr 1
              simp only [List.findSome?, propsOf, jget_to_getkPure _ _ _ hp]
              cases lookupFirst pl key <;> rfl
            · rw [hreq]
              simp [hre, List.append_assoc]
          · obtain ⟨props, req, hfold, hlook, hreq⟩ :=
              mergeObjectFold_spec cfg root l' effs'
                props0 (req0 ++ concatJS rv) hrest heff'
            refine ⟨props, req, ?_, ?_, ?_⟩
            · unfold mergeObjectFold
              rw [hde, ok_bind, hp, ok_bind]
              dsimp only
              rw [hrv, ok_bind]
              exact hfold
            · intro key
              rw [hlook key]
              congr 1
              unfold lastWins
              rw [show (eff :: effs').reverse = effs'.reverse ++ [eff]
                from by simp, List.findSome?_append]
              simp only [List.findSome?, propsOf, jget_to_getkPure _ _ _ hp,
                lookupFirst]
              exact Option.or_none.symm
            · rw [hreq]
              simp [hre, List.append_assoc]

/-- C3: for every allOf list of object schemas (each member dereferenced
first when it is a `$ref`; a member may lack the properties key entirely,
the assignment of its undefined properties then contributes nothing), the
merged node is object-typed, its properties mapping is the union of the
members' properties with later members overwriting earlier ones on key
collision, and its required list is the concatenation of the members'
required lists, duplicates kept. -/
theorem c3_mergeObject_union_concat (cfg : Cfg) (root : JSON)
    (l effs : List JSON)
    (hd : List.Forall₂ (fun it eff => derefItem cfg root it = .ok eff) l effs)
    (heff : ∀ eff ∈ effs,
      ((∃ pl, jget eff "properties" = .ok (.obj pl) ∧
          (pl.map Prod.fst).Nodup) ∨
        jget eff "properties" = .ok .undef) ∧
      (∃ rv, jget eff "required" = .ok rv ∧ (isArrB rv = true ∨ rv = .undef))) :
    ∃ merged, mergeObject cfg root l = .ok merged ∧
      getkPure merged "type" = .str "object" ∧
      (∀ key, lookupFirst (propsOf merged) key = lastWins effs key) ∧
      reqOf merged = (effs.map reqOf).flatten := by
  obtain ⟨props, req, hfold, hlook, hreq⟩ :=
    mergeObjectFold_spec cfg root l effs [] [] hd heff
  simp only [List.nil_append] at hreq
  refine ⟨_, by unfold mergeObject; rw [hfold, ok_bind]; exact rfl, ?_, ?_, ?_⟩
  · by_cases he : req.isEmpty <;> simp [he, getkPure, lookupFirst]
  · intro key
    have hpm : propsOf (JSON.obj
        ([("type", .str "object"), ("properties", .obj props)] ++
          if req.isEmpty then [] else [("required", .arr req)])) = props := by
      by_cases he : req.isEmpty <;> simp [he, propsOf, getkPure, lookupFirst]
    rw [hpm, hlook key]
    simp [lookupFirst, Option.or_none]
  · by_cases he : req.isEmpty
    · have : req = [] := by simpa [List.isEmpty_iff] using he
      simp [he, reqOf, getkPure, lookupFirst, ← hreq, this]
    · simp [he, reqOf, getkPure, lookupFirst, ← hreq]

/-- C3 witness: two members with overlapping property b and identical
required entry a; the merge keeps the later b and both copies of a. -/
theorem c3_witness :
    mergeObject {} (.obj [])
        [.obj [("properties", .obj [("a", .obj [("type", .str "boolean")]),
            ("b", .obj [("type", .str "boolean")])]),
          ("required", .arr [.str "a"])],
         .obj [("properties", .obj [("b", .obj [("type", .str "number")])]),
          ("required", .arr [.str "a"])],
         .obj [("type", .str "object"), ("required", .arr [.str "c"])]] =
      .ok (.obj [("type", .str "object"),
        ("properties", .obj [("a", .obj [("type", .str "boolean")]),
          ("b", .obj [("type", .str "number")])]),
        ("required", .arr [.str "a", .str "a", .str "c"])]) ∧
    (∃ merged, mergeObject {} (.obj [])
        [.obj [("properties", .obj [("a", .obj [("type", .str "boolean")]),
            ("b", .obj [("type", .str "boolean")])]),
          ("required", .arr [.str "a"])],
         .obj [("properties", .obj [("b", .obj [("type", .str "number")])]),
          ("required", .arr [.str "a"])],
         .obj [("type", .str "object"),
          ("required", .arr [.str "c"])]] = .ok merged ∧
      getkPure merged "type" = .str "object" ∧
      (∀ key, lookupFirst (propsOf merged) key = lastWins
        [.obj [("properties", .obj [("a", .obj [("type", .str "boolean")]),
            ("b", .obj [("type", .str "boolean")])]),
          ("required", .arr [.str "a"])],
         .obj [("properties", .obj [("b", .obj [("type", .str "number")])]),
          ("required", .arr [.str "a"])],
         .obj [("type", .str "object"), ("required", .arr [.str "c"])]] key) ∧
      reqOf merged = ([.obj [("properties",
            .obj [("a", .obj [("type", .str "boolean")]),
            ("b", .obj [("type", .str "boolean")])]),
          ("required", .arr [.str "a"])],
         .obj [("properties", .obj [("b", .obj [("type", .str "number")])]),
          ("required", .arr [.str "a"])],
         .obj [("type", .str "object"),
          ("required", .arr [.str "c"])]].map reqOf).flatten) := by
  constructor
  · rfl
  · refine c3_mergeObject_union_concat {} (.obj []) _ _
      (List.Forall₂.cons rfl (List.Forall₂.cons rfl
        (List.Forall₂.cons rfl List.Forall₂.nil))) ?_
    intro eff he
    rcases List.mem_cons.mp he with rfl | he2
    · exact ⟨.inl ⟨_, rfl, by decide⟩, ⟨_, rfl, .inl rfl⟩⟩
    rcases List.mem_cons.mp he2 with rfl | he3
    · exact ⟨.inl ⟨_, rfl, by decide⟩, ⟨_, rfl, .inl rfl⟩⟩
    rcases List.mem_cons.mp he3 with rfl | h4
    · exact ⟨.inr rfl, ⟨_, rfl, .inl rfl⟩⟩
    · simp at h4

/-- The list helper of the demo semantics agrees with `List.any`. -/
theorem satDemoAny_eq_any :
    ∀ (l : List Rule) (v : JSON),
      satDemoAny l v = l.any fun r => satDemo r v
  | [], _ => rfl
  | r :: rs, v => by
      simp [satDemoAny, List.any_cons, satDemoAny_eq_any rs v]

/-- C6: the not resolver requires an array (else the shape assertion) and
builds the conditional rule that alternates the resolved members as its
condition, forbids when it matches, and accepts anything otherwise: under
every semantics obeying the Joi combinator laws, the built rule is
satisfied exactly by the values that match none of the member rules. -/
theorem c6_not_forbids_alternation (res : Resolver) :
    (∀ n v, jget n "not" = .ok v → isArrB v = false →
      resolveNot res n = .error .shapeNot) ∧
    (∀ n l out, jget n "not" = .ok (.arr l) → resolveNot res n = .ok out →
      ∃ rs l' ws, mapThread res l = .ok (rs, l', ws) ∧
        out.rule = .whenW (.tryW rs (.alternatives []))
          (.forbidden .any) .any (.alternatives []) ∧
        ∀ sat : Rule → JSON → Bool,
          (∀ c t e b v, sat (.whenW c t e b) v =
            if sat c v then sat t v else sat e v) →
          (∀ rl b v, sat (.tryW rl b) v =
            (rl.any (fun r => sat r v) || sat b v)) →
          (∀ r v, sat (.forbidden r) v = false) →
          (∀ v, sat .any v = true) →
          (∀ v, sat (.alternatives []) v = false) →
          ∀ v, sat out.rule v = !(rs.any fun r => sat r v)) := by
  constructor
  · intro n v hj hv
    unfold resolveNot
    rw [hj, ok_bind]
    cases v <;> first | rfl | exact Bool.noConfusion hv
  · intro n l out hj h
    unfold resolveNot at h
    rw [hj, ok_bind] at h
    dsimp only at h
    cases hm : mapThread res l with
    | error e => rw [hm, error_bind] at h; exact Except.noConfusion h
    | ok t =>
        obtain ⟨rs, l', ws⟩ := t
        rw [hm, ok_bind] at h
        cases h
        refine ⟨rs, l', ws, rfl, rfl, ?_⟩
        intro sat hwhen htry hforb hany halt v
        rw [hwhen, htry, hforb, hany, halt]
        cases rs.any fun r => sat r v <;> simp

/-- C6 witness: the demo semantics obeys the combinator laws, and the
rule built for not-boolean rejects a boolean value and accepts a number.
-/
theorem c6_witness :
    resolveNot (resolve {} (.obj []) 2)
        (.obj [("not", .arr [.obj [("type", .str "boolean")]])]) =
      .ok ⟨.whenW (.tryW [.strict false .boolean] (.alternatives []))
          (.forbidden .any) .any (.alternatives []),
        .obj [("not", .arr [.obj [("type", .str "boolean")]])], []⟩ ∧
    satDemo (.whenW (.tryW [.strict false .boolean] (.alternatives []))
      (.forbidden .any) .any (.alternatives [])) (.bool true) = false ∧
    satDemo (.whenW (.tryW [.strict false .boolean] (.alternatives []))
      (.forbidden .any) .any (.alternatives [])) (.num 3) = true := by
  refine ⟨rfl, ?_, ?_⟩ <;>
  · obtain ⟨rs, l', ws, hm, hrule, hsat⟩ :=
      (c6_not_forbids_alternation (resolve {} (.obj []) 2)).2
        (.obj [("not", .arr [.obj [("type", .str "boolean")]])])
        [.obj [("type", .str "boolean")]]
        ⟨.whenW (.tryW [.strict false .boolean] (.alternatives []))
            (.forbidden .any) .any (.alternatives []),
          .obj [("not", .arr [.obj [("type", .str "boolean")]])], []⟩
        rfl rfl
    rw [show mapThread (resolve {} (.obj []) 2)
        [.obj [("type", .str "boolean")]] =
      .ok ([Rule.strict false .boolean],
        [.obj [("type", .str "boolean")]], []) from rfl] at hm
    cases hm
    have h := hsat satDemo (fun _ _ _ _ _ => rfl)
      (fun rl b v => by simp [satDemo, satDemoAny_eq_any])
      (fun _ _ => rfl) (fun _ => rfl) (fun _ => rfl)
    first
      | exact h (.bool true)
      | exact h (.num 3)

/-! Stability of resolution (the support for reference idempotence):
re-resolving any node returned by a resolver reproduces the same rule,
node and warnings. The development follows the one stateful step of the
source — the minLength defaulting — through every resolver. -/

theorem setPair_of_lookup {α : Type} :
    ∀ (l : List (String × α)) (k : String) (v : α),
      lookupFirst l k = some v → setPair l k v = l
  | [], _, _, h => by simp [lookupFirst] at h
  | (k', v') :: rest, k, v, h => by
      by_cases hk : k' = k
      · subst hk
        simp [lookupFirst] at h
        subst h
        simp [setPair]
      · simp only [lookupFirst, if_neg hk] at h
        simp [setPair, hk, setPair_of_lookup rest k v h]

/-- Writing back the value a key already holds leaves the node unchanged.
-/
theorem jset_self (n : JSON) (k : String) (v : JSON)
    (hg : getkPure n k = v) (hv : v ≠ .undef) : jset n k v = n := by
  cases n <;> try rfl
  case obj l =>
    simp only [getkPure] at hg
    cases hl : lookupFirst l k with
    | none => rw [hl] at hg; simp at hg; exact absurd hg.symm hv
    | some v' =>
        rw [hl] at hg
        simp only [Option.getD_some] at hg
        subst hg
        simp [jset, setPair_of_lookup l k v' hl]

/-- A successful resolution implies the node was not undefined or null
(the first property read would have thrown). -/
theorem resolve_ok_nonNullish (cfg : Cfg) (root : JSON) (k : Nat) (m : JSON)
    (out : Res) (h : resolve cfg root k m = .ok out) :
    m ≠ .undef ∧ m ≠ .null := by
  cases k with
  | zero => exact Except.noConfusion h
  | succ k =>
      constructor <;> rintro rfl <;> exact Except.noConfusion h

theorem resolveAsArray_single (res : Resolver) (value : JSON)
    (hv : isArrB value = false) :
    resolveAsArray res value = (do
      let r ← res value
      pure ([r.rule], r.node, r.warns)) := by
  cases value <;> first | rfl | exact Bool.noConfusion hv

theorem stab_mapThread (res : Resolver) (hres : HStab res) :
    ∀ (l : List JSON) (rs : List Rule) (l' ws : List JSON),
      mapThread res l = .ok (rs, l', ws) →
      mapThread res l' = .ok (rs, l', ws)
  | [], rs, l', ws, h => by cases h; rfl
  | x :: xs, rs, l', ws, h => by
      unfold mapThread at h
      cases hr : res x with
      | error e => rw [hr, error_bind] at h; exact Except.noConfusion h
      | ok out =>
          rw [hr, ok_bind] at h
          cases hm : mapThread res xs with
          | error e => rw [hm, error_bind] at h; exact Except.noConfusion h
          | ok t =>
              obtain ⟨rs2, xs2, ws2⟩ := t
              rw [hm, ok_bind] at h
              cases h
              unfold mapThread
              rw [(hres x out hr).1, ok_bind,
                stab_mapThread res hres xs rs2 xs2 ws2 hm, ok_bind]

theorem stab_resolveAsArray (res : Resolver) (hres : HStab res)
    (value : JSON) (rules : List Rule) (v' : JSON) (ws : List JSON)
    (h : resolveAsArray res value = .ok (rules, v', ws)) :
    resolveAsArray res v' = .ok (rules, v', ws) ∧ truthy v' = truthy value := by
  by_cases hv : isArrB value = true
  · cases value <;> try exact Bool.noConfusion hv
    next l =>
      unfold resolveAsArray at h
      dsimp only at h
      cases hm : mapThread res l with
      | error e => rw [hm, error_bind] at h; exact Except.noConfusion h
      | ok t =>
          obtain ⟨rs2, l2, ws2⟩ := t
          rw [hm, ok_bind] at h
          cases h
          refine ⟨?_, rfl⟩
          unfold resolveAsArray
          dsimp only
          rw [stab_mapThread res hres l rs2 l2 ws2 hm, ok_bind]
          rfl
  · have hv' : isArrB value = false := by simpa using hv
    rw [resolveAsArray_single res value hv'] at h
    cases hr : res value with
    | error e => rw [hr, error_bind] at h; exact Except.noConfusion h
    | ok out =>
        rw [hr, ok_bind] at h
        cases h
        obtain ⟨hstab, hshape⟩ := hres value out hr
        have hna : isArrB out.node = false := by
          rcases hshape with he | ⟨h1, h2⟩
          · rw [he]; exact hv'
          · cases hn : out.node <;> simp_all [isObjB, isArrB]
        constructor
        · rw [resolveAsArray_single res out.node hna, hstab, ok_bind]
          rfl
        · rcases hshape with he | ⟨h1, h2⟩
          · rw [he]
          · cases value <;> cases hn : out.node <;> simp_all [isObjB, truthy]

theorem propsFold_keys (res : Resolver) (req : JSON) :
    ∀ (es : List (String × JSON)) (acc m : List (String × Rule))
      (es' : List (String × JSON)) (ws : List JSON),
      propsFold res req acc es = .ok (m, es', ws) →
      es'.map Prod.fst = es.map Prod.fst
  | [], acc, m, es', ws, h => by cases h; rfl
  | (k, v) :: rest, acc, m, es', ws, h => by
      unfold propsFold at h
      cases hr : res v with
      | error e => rw [hr, error_bind] at h; exact Except.noConfusion h
      | ok out =>
          rw [hr, ok_bind] at h
          cases hrule : propRule req k out.rule with
          | error e => rw [hrule, error_bind] at h; exact Except.noConfusion h
          | ok rule =>
              rw [hrule, ok_bind] at h
              cases hfold : propsFold res req (setPair acc k rule) rest with
              | error e => rw [hfold, error_bind] at h; exact Except.noConfusion h
              | ok t =>
                  obtain ⟨m2, es2, ws2⟩ := t
                  rw [hfold, ok_bind] at h
                  cases h
                  simp [propsFold_keys res req rest _ _ _ _ hfold]

theorem jget_obj (n : JSON) (k : String) (h : isObjB n = true) :
    jget n k = .ok (getkPure n k) := by
  cases n <;> simp_all [jget, isObjB]

theorem isObjB_jset (n : JSON) (k : String) (v : JSON) :
    isObjB (jset n k v) = isObjB n := by
  cases n <;> rfl

theorem stab_propsFold (res : Resolver) (hres : HStab res) (req : JSON) :
    ∀ (es : List (String × JSON)) (acc m : List (String × Rule))
      (es' : List (String × JSON)) (ws : List JSON),
      propsFold res req acc es = .ok (m, es', ws) →
      propsFold res req acc es' = .ok (m, es', ws)
  | [], acc, m, es', ws, h => by cases h; rfl
  | (k, v) :: rest, acc, m, es', ws, h => by
      unfold propsFold at h
      cases hr : res v with
      | error e => rw [hr, error_bind] at h; exact Except.noConfusion h
      | ok out =>
          rw [hr, ok_bind] at h
          cases hrule : propRule req k out.rule with
          | error e => rw [hrule, error_bind] at h; exact Except.noConfusion h
          | ok rule =>
              rw [hrule, ok_bind] at h
              cases hfold : propsFold res req (setPair acc k rule) rest with
              | error e => rw [hfold, error_bind] at h; exact Except.noConfusion h
              | ok t =>
                  obtain ⟨m2, es2, ws2⟩ := t
                  rw [hfold, ok_bind] at h
                  cases h
                  unfold propsFold
                  rw [(hres v out hr).1, ok_bind, hrule, ok_bind,
                    stab_propsFold res hres req rest _ _ _ _ hfold, ok_bind]

/-- Re-running the common string constraints on a node carrying the same
pattern, maxLength and (already defaulted) minLength reproduces the rule
and leaves the node alone. -/
theorem gstab_regularString (l : List (String × JSON)) (js r : Rule) (n' : JSON)
    (h : regularString (.obj l) js = .ok (r, n')) :
    ∀ curX, isObjB curX = true →
      getkPure curX "pattern" = getkPure n' "pattern" →
      getkPure curX "minLength" = getkPure n' "minLength" →
      getkPure curX "maxLength" = getkPure n' "maxLength" →
      regularString curX js = .ok (r, curX) := by
  intro curX hX hpat hml hmx
  have e1 : getkPure (jset (JSON.obj l) "minLength" (.num 0)) "pattern" =
      getkPure (JSON.obj l) "pattern" := getkPure_jset_ne _ _ _ _ (by decide)
  have e2 : getkPure (jset (JSON.obj l) "minLength" (.num 0)) "maxLength" =
      getkPure (JSON.obj l) "maxLength" := getkPure_jset_ne _ _ _ _ (by decide)
  have e3 : getkPure (jset (JSON.obj l) "minLength" (.num 0)) "minLength" =
      .num 0 := getkPure_jset_self l _ _
  unfold regularString at h
  rw [jget_obj (JSON.obj l) "pattern" rfl, ok_bind,
    jget_obj (JSON.obj l) "minLength" rfl, ok_bind] at h
  by_cases hu : isUndefB (getkPure (JSON.obj l) "minLength") = true
  · rw [if_pos hu] at h
    dsimp only at h
    have hobj : isObjB (jset (JSON.obj l) "minLength" (.num 0)) = true := rfl
    rw [jget_obj _ _ hobj, ok_bind, jget_obj _ _ hobj, ok_bind] at h
    cases h
    have hml0 : getkPure curX "minLength" = .num 0 := by rw [hml, e3]
    have hp2 : getkPure curX "pattern" = getkPure (JSON.obj l) "pattern" := by
      rw [hpat, e1]
    have hx2 : getkPure curX "maxLength" = getkPure (JSON.obj l) "maxLength" := by
      rw [hmx, e2]
    unfold regularString
    rw [jget_obj curX "pattern" hX, ok_bind,
      jget_obj curX "minLength" hX, ok_bind,
      if_neg (by rw [hml0]; simp [isUndefB])]
    dsimp only
    rw [jget_obj curX "minLength" hX, ok_bind,
      jget_obj curX "maxLength" hX, ok_bind]
    simp only [hp2, hml0, hx2, e1, e2, e3]
    rfl
  · rw [if_neg hu] at h
    dsimp only at h
    rw [jget_obj (JSON.obj l) "minLength" rfl, ok_bind,
      jget_obj (JSON.obj l) "maxLength" rfl, ok_bind] at h
    cases h
    have hp2 : getkPure curX "pattern" = getkPure (JSON.obj l) "pattern" := hpat
    have hm2 : getkPure curX "minLength" = getkPure (JSON.obj l) "minLength" := hml
    have hx2 : getkPure curX "maxLength" = getkPure (JSON.obj l) "maxLength" := hmx
    unfold regularString
    rw [jget_obj curX "pattern" hX, ok_bind,
      jget_obj curX "minLength" hX, ok_bind, hm2, if_neg hu]
    dsimp only
    rw [jget_obj curX "minLength" hX, ok_bind,
      jget_obj curX "maxLength" hX, ok_bind]
    simp only [hp2, hm2, hx2]
    rfl

theorem quirkEq_ne (m n : JSON) (k : String) (hk : k ≠ "minLength")
    (h : quirkEq m n k) : getkPure n k = getkPure m k := by
  rcases h with he | ⟨hkk, _⟩
  · exact he
  · exact absurd hkk hk

theorem quirkEq_not_undef (m n : JSON) (h : quirkEq m n "minLength")
    (hm : getkPure m "minLength" ≠ .undef) :
    getkPure n "minLength" = getkPure m "minLength" := by
  rcases h with he | ⟨_, hma, _⟩
  · exact he
  · exact absurd hma hm

/-- After the common string constraints ran, the node carries a
minLength. -/
theorem regularString_minLength (l : List (String × JSON)) (js r : Rule)
    (n' : JSON) (h : regularString (.obj l) js = .ok (r, n')) :
    getkPure n' "minLength" ≠ .undef := by
  rcases regularString_node (.obj l) js r n' h with he | ⟨hml, he⟩
  · subst he
    unfold regularString at h
    rw [jget_obj (JSON.obj l) "pattern" rfl, ok_bind,
      jget_obj (JSON.obj l) "minLength" rfl, ok_bind] at h
    by_cases hu : isUndefB (getkPure (JSON.obj l) "minLength") = true
    · exfalso
      rw [if_pos hu] at h
      dsimp only at h
      have hobj : isObjB (jset (JSON.obj l) "minLength" (.num 0)) = true := rfl
      rw [jget_obj _ _ hobj, ok_bind, jget_obj _ _ hobj, ok_bind] at h
      have := congrArg (fun x : Rule × JSON =>
        getkPure x.2 "minLength") (Except.ok.inj h)
      simp only [getkPure_jset_self] at this
      have hml0 : getkPure (JSON.obj l) "minLength" = .undef := by
        cases hv : getkPure (JSON.obj l) "minLength" <;>
          simp_all [isUndefB]
      rw [hml0] at this
      exact JSON.noConfusion this
    · intro habs
      exact hu (by rw [habs]; rfl)
  · subst he
    rw [getkPure_jset_self]
    exact fun habs => JSON.noConfusion habs

theorem date_congr (a b : JSON) (ha : isObjB a = true) (hb : isObjB b = true)
    (hmn : getkPure b "minimum" = getkPure a "minimum")
    (hmx : getkPure b "maximum" = getkPure a "maximum") :
    date b = date a := by
  unfold date
  rw [jget_obj a "minimum" ha, ok_bind, jget_obj a "maximum" ha, ok_bind,
    jget_obj b "minimum" hb, ok_bind, jget_obj b "maximum" hb, ok_bind,
    hmn, hmx]

theorem binary_quirk (a b : JSON) (ha : isObjB a = true)
    (hb : isObjB b = true) (hmn : quirkEq a b "minLength")
    (hmx : getkPure b "maxLength" = getkPure a "maxLength") :
    binary b = binary a := by
  unfold binary
  rw [jget_obj a "minLength" ha, ok_bind, jget_obj a "maxLength" ha, ok_bind,
    jget_obj b "minLength" hb, ok_bind, jget_obj b "maxLength" hb, ok_bind,
    hmx]
  rcases hmn with he | ⟨_, hma, hmb⟩
  · rw [he]
  · rw [hma, hmb]
    simp [truthy]

/-- Re-running the string builder on a node that agrees with its output
on every key it reads (up to the minLength defaulting) reproduces the
rule and leaves the node alone. -/
theorem gstab_string (l : List (String × JSON)) (r : Rule) (n' : JSON)
    (h : string (.obj l) = .ok (r, n')) (curX : JSON)
    (hX : isObjB curX = true)
    (hq : ∀ k ∈ (["enum", "format", "pattern", "minLength", "maxLength",
      "minimum", "maximum"] : List String), quirkEq n' curX k) :
    string curX = .ok (r, curX) := by
  have hqe : ∀ k, k ∈ (["enum", "format", "pattern", "minLength",
      "maxLength", "minimum", "maximum"] : List String) → k ≠ "minLength" →
      getkPure curX k = getkPure n' k :=
    fun k hk hkml => quirkEq_ne n' curX k hkml (hq k hk)
  unfold string at h
  rw [jget_obj (JSON.obj l) "enum" rfl, ok_bind] at h
  by_cases he : truthy (getkPure (JSON.obj l) "enum") = true
  · rw [if_pos he] at h
    cases h
    have hee : getkPure curX "enum" = getkPure (JSON.obj l) "enum" :=
      hqe "enum" (by simp) (by decide)
    unfold string
    rw [jget_obj curX "enum" hX, ok_bind, hee, if_pos he]
    rfl
  · rw [if_neg he] at h
    rw [jget_obj (JSON.obj l) "format" rfl, ok_bind] at h
    by_cases hd : (eqStr (getkPure (JSON.obj l) "format") "date" ||
        eqStr (getkPure (JSON.obj l) "format") "date-time") = true
    · rw [if_pos hd] at h
      cases hdt : date (.obj l) with
      | error e => rw [hdt, error_bind] at h; exact Except.noConfusion h
      | ok rd =>
          rw [hdt, ok_bind] at h
          cases h
          have hee : getkPure curX "enum" = getkPure (JSON.obj l) "enum" :=
            hqe "enum" (by simp) (by decide)
          have hfe : getkPure curX "format" = getkPure (JSON.obj l) "format" :=
            hqe "format" (by simp) (by decide)
          unfold string
          rw [jget_obj curX "enum" hX, ok_bind, hee, if_neg he,
            jget_obj curX "format" hX, ok_bind, hfe, if_pos hd,
            date_congr (.obj l) curX rfl hX
              (hqe "minimum" (by simp) (by decide))
              (hqe "maximum" (by simp) (by decide)),
            hdt, ok_bind]
          rfl
    · rw [if_neg hd] at h
      by_cases hb : eqStr (getkPure (JSON.obj l) "format") "binary" = true
      · rw [if_pos hb] at h
        cases hbn : binary (.obj l) with
        | error e => rw [hbn, error_bind] at h; exact Except.noConfusion h
        | ok rb =>
            rw [hbn, ok_bind] at h
            cases h
            have hee : getkPure curX "enum" = getkPure (JSON.obj l) "enum" :=
              hqe "enum" (by simp) (by decide)
            have hfe : getkPure curX "format" = getkPure (JSON.obj l) "format" :=
              hqe "format" (by simp) (by decide)
            unfold string
            rw [jget_obj curX "enum" hX, ok_bind, hee, if_neg he,
              jget_obj curX "format" hX, ok_bind, hfe, if_neg hd, if_pos hb,
              binary_quirk (.obj l) curX rfl hX (hq "minLength" (by simp))
                (hqe "maxLength" (by simp) (by decide)),
              hbn, ok_bind]
            rfl
      · rw [if_neg hb] at h
        have hee : getkPure curX "enum" = getkPure n' "enum" :=
          hqe "enum" (by simp) (by decide)
        have hfe : getkPure curX "format" = getkPure n' "format" :=
          hqe "format" (by simp) (by decide)
        have hen : getkPure n' "enum" = getkPure (JSON.obj l) "enum" := by
          rcases regularString_node _ _ _ _ h with he2 | ⟨_, he2⟩ <;> subst he2
          · rfl
          · exact getkPure_jset_ne _ _ _ _ (by decide)
        have hfn : getkPure n' "format" = getkPure (JSON.obj l) "format" := by
          rcases regularString_node _ _ _ _ h with he2 | ⟨_, he2⟩ <;> subst he2
          · rfl
          · exact getkPure_jset_ne _ _ _ _ (by decide)
        have hpat' : getkPure curX "pattern" = getkPure n' "pattern" :=
          hqe "pattern" (by simp) (by decide)
        have hml' : getkPure curX "minLength" = getkPure n' "minLength" :=
          quirkEq_not_undef n' curX (hq "minLength" (by simp))
            (regularString_minLength l _ r n' h)
        have hmx' : getkPure curX "maxLength" = getkPure n' "maxLength" :=
          hqe "maxLength" (by simp) (by decide)
        unfold string
        rw [jget_obj curX "enum" hX, ok_bind, hee, hen, if_neg he,
          jget_obj curX "format" hX, ok_bind, hfe, hfn, if_neg hd, if_neg hb]
        exact gstab_regularString l _ r n' h curX hX hpat' hml' hmx'

theorem enumFrom_reconstruct :
    ∀ (es : List (String × JSON)) (n : Nat),
      es.map Prod.fst =
        ((es.map Prod.snd).enumFrom n).map (fun p => toString p.1) →
      (((es.map Prod.snd).enumFrom n).map fun p => (toString p.1, p.2)) = es
  | [], _, _ => rfl
  | (k, v) :: rest, n, h => by
      simp only [List.map_cons, List.enumFrom_cons, List.cons.injEq] at h
      obtain ⟨hk, hrest⟩ := h
      simp only [List.map_cons, List.enumFrom_cons, List.cons.injEq]
      exact ⟨by rw [hk], enumFrom_reconstruct rest (n + 1) hrest⟩

/-- Rebuilding a properties value from entries carrying its own keys and
reading it back gives the entries again. -/
theorem jsEntries_rebuild (P : JSON) (es : List (String × JSON))
    (hP : isObjectJS P = true)
    (hk : es.map Prod.fst = (jsEntries P).map Prod.fst) :
    jsEntries (rebuildLike P es) = es := by
  cases P <;> try exact Bool.noConfusion hP
  case obj pl => rfl
  case arr pl =>
    show (((es.map Prod.snd).enumFrom 0).map fun p => (toString p.1, p.2)) = es
    apply enumFrom_reconstruct es 0
    rw [hk]
    have hlen : pl.length = es.length := by
      have := congrArg List.length hk
      simpa [jsEntries] using this.symm
    show ((pl.enumFrom 0).map fun p => (toString p.1, p.2)).map Prod.fst =
      ((es.map Prod.snd).enumFrom 0).map fun p => toString p.1
    rw [List.map_map]
    have h1 : ∀ (q : List JSON) (n : Nat),
        ((q.enumFrom n).map fun p => toString p.1) =
          (List.range' n q.length).map toString := by
      intro q n
      show List.map (toString ∘ Prod.fst) (q.enumFrom n) = _
      rw [← List.map_map, List.enumFrom_map_fst]
    rw [show ((pl.enumFrom 0).map
        (Prod.fst ∘ fun p : Nat × JSON => (toString p.1, p.2))) =
        ((pl.enumFrom 0).map fun p => toString p.1) from rfl,
      h1, h1]
    simp [hlen]

theorem isObjectJS_ne_undef (v : JSON) (h : isObjectJS v = true) :
    v ≠ .undef := by
  intro habs
  rw [habs] at h
  exact Bool.noConfusion h

/-- The node `resolveproperties` returns: same shape, same keys other
than properties. -/
theorem resolveproperties_shape (res : Resolver) (n : JSON)
    (p? : Option (List (String × Rule))) (n1 : JSON) (w : List JSON)
    (h : resolveproperties res n = .ok (p?, n1, w)) :
    isObjB n1 = isObjB n ∧
      (∀ k, k ≠ "properties" → getkPure n1 k = getkPure n k) := by
  unfold resolveproperties at h
  cases hj : jget n "properties" with
  | error e => rw [hj, error_bind] at h; exact Except.noConfusion h
  | ok P =>
      rw [hj, ok_bind] at h
      by_cases hio : isObjectJS P = true
      · rw [if_pos hio] at h
        cases hr : jget n "required" with
        | error e => rw [hr, error_bind] at h; exact Except.noConfusion h
        | ok req =>
            rw [hr, ok_bind] at h
            cases hfold : propsFold res req [] (jsEntries P) with
            | error e => rw [hfold, error_bind] at h; exact Except.noConfusion h
            | ok t =>
                obtain ⟨m, es', ws⟩ := t
                rw [hfold, ok_bind] at h
                cases h
                exact ⟨isObjB_jset n _ _,
                  fun k hkne => getkPure_jset_ne n _ k _ hkne⟩
      · rw [if_neg hio] at h
        cases h
        exact ⟨rfl, fun _ _ => rfl⟩

theorem beq_boolTrue_of_objLike (v : JSON) (h : isObjectJS v = true) :
    JSON.beq v (.bool true) = false := by
  cases v <;> first | rfl | exact Bool.noConfusion h

theorem isObjectJS_of_shape (a b : JSON) (ha : isObjectJS a = true)
    (hs : b = a ∨ (isObjB a = true ∧ isObjB b = true)) :
    isObjectJS b = true := by
  rcases hs with rfl | ⟨_, h2⟩
  · exact ha
  · cases b <;> simp_all [isObjB, isObjectJS]

/-- Re-running the properties resolution on a node carrying the returned
properties value and the same required value reproduces the rule map and
leaves the node alone. -/
theorem gstab_resolveproperties (res : Resolver) (hres : HStab res)
    (l : List (String × JSON)) (p? : Option (List (String × Rule)))
    (cur1 : JSON) (w1 : List JSON)
    (h : resolveproperties res (.obj l) = .ok (p?, cur1, w1)) :
    ∀ curX, isObjB curX = true →
      getkPure curX "properties" = getkPure cur1 "properties" →
      getkPure curX "required" = getkPure (.obj l) "required" →
      resolveproperties res curX = .ok (p?, curX, w1) := by
  intro curX hX hprops hreq
  unfold resolveproperties at h
  rw [jget_obj (JSON.obj l) "properties" rfl, ok_bind] at h
  by_cases hio : isObjectJS (getkPure (JSON.obj l) "properties") = true
  · rw [if_pos hio] at h
    rw [jget_obj (JSON.obj l) "required" rfl, ok_bind] at h
    cases hfold : propsFold res (getkPure (JSON.obj l) "required") []
        (jsEntries (getkPure (JSON.obj l) "properties")) with
    | error e => rw [hfold, error_bind] at h; exact Except.noConfusion h
    | ok t =>
        obtain ⟨m, entries', ws⟩ := t
        rw [hfold, ok_bind] at h
        cases h
        have hkeys := propsFold_keys res _ _ _ _ _ _ hfold
        have hrebuild : jsEntries (rebuildLike
            (getkPure (JSON.obj l) "properties") entries') = entries' :=
          jsEntries_rebuild _ _ hio hkeys
        have hPX : getkPure curX "properties" =
            rebuildLike (getkPure (JSON.obj l) "properties") entries' := by
          rw [hprops, getkPure_jset_self]
        have hioX : isObjectJS (rebuildLike
            (getkPure (JSON.obj l) "properties") entries') = true := by
          cases getkPure (JSON.obj l) "properties" <;> rfl
        have hrr : rebuildLike (rebuildLike
            (getkPure (JSON.obj l) "properties") entries') entries' =
            rebuildLike (getkPure (JSON.obj l) "properties") entries' := by
          cases getkPure (JSON.obj l) "properties" <;> rfl
        have hne : rebuildLike (getkPure (JSON.obj l) "properties")
            entries' ≠ .undef := by
          cases getkPure (JSON.obj l) "properties" <;> simp [rebuildLike]
        unfold resolveproperties
        rw [jget_obj curX "properties" hX, ok_bind, hPX, if_pos hioX,
          jget_obj curX "required" hX, ok_bind, hreq, hrebuild,
          stab_propsFold res hres _ _ _ _ _ _ hfold, ok_bind]
        dsimp only
        rw [hrr, jset_self curX "properties" _ hPX hne]
        rfl
  · rw [if_neg hio] at h
    cases h
    unfold resolveproperties
    rw [jget_obj curX "properties" hX, ok_bind, hprops, if_neg hio]
    rfl

/-- Re-running the object builder on a node agreeing with the returned
node on every key the builder reads reproduces the rule and warnings and
leaves the node alone. -/
theorem gstab_object (res : Resolver) (hres : HStab res)
    (l : List (String × JSON)) (out : Res)
    (h : object res (.obj l) = .ok out) :
    ∀ curX, isObjB curX = true →
      (∀ k ∈ (["properties", "required", "additionalProperties",
        "minProperties", "maxProperties"] : List String),
        getkPure curX k = getkPure out.node k) →
      object res curX = .ok ⟨out.rule, curX, out.warns⟩ := by
  intro curX hX hk
  have hkP := hk "properties" (by simp)
  have hkR := hk "required" (by simp)
  have hkA := hk "additionalProperties" (by simp)
  have hkMn := hk "minProperties" (by simp)
  have hkMx := hk "maxProperties" (by simp)
  unfold object at h
  cases h1 : resolveproperties res (.obj l) with
  | error e => rw [h1, error_bind] at h; exact Except.noConfusion h
  | ok t1 =>
      obtain ⟨p?, cur1, w1⟩ := t1
      rw [h1, ok_bind] at h
      dsimp only at h
      obtain ⟨hshape, hframe⟩ := resolveproperties_shape res _ _ _ _ h1
      have hc1 : isObjB cur1 = true := hshape
      obtain ⟨l1, rfl⟩ : ∃ l1, cur1 = .obj l1 := by
        cases cur1 <;> first | exact ⟨_, rfl⟩ | exact Bool.noConfusion hc1
      rw [jget_obj (JSON.obj l1) "additionalProperties" rfl, ok_bind] at h
      by_cases hio :
          isObjectJS (getkPure (JSON.obj l1) "additionalProperties") = true
      · rw [if_pos hio,
          beq_boolTrue_of_objLike _ hio, if_neg Bool.false_ne_true] at h
        cases hr : res (getkPure (JSON.obj l1) "additionalProperties") with
        | error e => rw [hr, error_bind] at h; exact Except.noConfusion h
        | ok rA =>
            rw [hr, ok_bind, pure_eq_ok, ok_bind] at h
            dsimp only at h
            have hc2 : isObjB (jset (JSON.obj l1) "additionalProperties"
                rA.node) = true := rfl
            rw [jget_obj _ "minProperties" hc2, ok_bind,
              jget_obj _ "maxProperties" hc2, ok_bind, pure_eq_ok] at h
            cases h
            obtain ⟨hfix, hshapeA⟩ :=
              hres (getkPure (JSON.obj l1) "additionalProperties") rA hr
            have hOA : isObjectJS rA.node = true :=
              isObjectJS_of_shape _ _ hio hshapeA
            have hapX : getkPure curX "additionalProperties" = rA.node := by
              rw [hkA]
              exact getkPure_jset_self l1 _ _
            have hpX : getkPure curX "properties" =
                getkPure (JSON.obj l1) "properties" := by
              rw [hkP]
              exact getkPure_jset_ne (JSON.obj l1) "additionalProperties"
                "properties" rA.node (by decide)
            have hrX : getkPure curX "required" =
                getkPure (JSON.obj l) "required" := by
              rw [hkR, getkPure_jset_ne (JSON.obj l1) "additionalProperties"
                "required" rA.node (by decide)]
              exact hframe "required" (by decide)
            unfold object
            rw [gstab_resolveproperties res hres l p? _ w1 h1 curX hX hpX hrX,
              ok_bind]
            dsimp only
            rw [jget_obj curX "additionalProperties" hX, ok_bind]
            rw [hapX, beq_boolTrue_of_objLike _ hOA,
              if_neg Bool.false_ne_true, if_pos hOA, hfix, ok_bind,
              pure_eq_ok, ok_bind]
            dsimp only
            rw [jset_self curX "additionalProperties" rA.node hapX
              (isObjectJS_ne_undef _ hOA)]
            rw [jget_obj curX "minProperties" hX, ok_bind]
            rw [jget_obj curX "maxProperties" hX, ok_bind]
            rw [hkMn, hkMx]
            rfl
      · rw [if_neg hio, pure_eq_ok, ok_bind] at h
        dsimp only at h
        rw [jget_obj (JSON.obj l1) "minProperties" rfl, ok_bind,
          jget_obj (JSON.obj l1) "maxProperties" rfl, ok_bind,
          pure_eq_ok] at h
        cases h
        have hpX : getkPure curX "properties" =
            getkPure (JSON.obj l1) "properties" := hkP
        have hrX : getkPure curX "required" =
            getkPure (JSON.obj l) "required" := by
          rw [hkR]
          exact hframe "required" (by decide)
        unfold object
        rw [gstab_resolveproperties res hres l p? _ w1 h1 curX hX hpX hrX,
          ok_bind]
        dsimp only
        rw [jget_obj curX "additionalProperties" hX, ok_bind]
        rw [hkA, if_neg hio]
        rw [pure_eq_ok, ok_bind]
        dsimp only
        rw [jget_obj curX "minProperties" hX, ok_bind]
        rw [jget_obj curX "maxProperties" hX, ok_bind]
        rw [hkMn, hkMx]
        rfl

theorem truthy_ne_undef (v : JSON) (h : truthy v = true) : v ≠ .undef := by
  intro habs
  rw [habs] at h
  exact Bool.noConfusion h

/-- Re-running the array builder on a node agreeing with the returned
node on every key the builder reads reproduces the rule and warnings and
leaves the node alone. -/
theorem gstab_array (res : Resolver) (hres : HStab res)
    (l : List (String × JSON)) (out : Res)
    (h : array res (.obj l) = .ok out) :
    ∀ curX, isObjB curX = true →
      (∀ k ∈ (["items", "ordered", "additionalItems", "minItems",
        "maxItems", "uniqueItems"] : List String),
        getkPure curX k = getkPure out.node k) →
      array res curX = .ok ⟨out.rule, curX, out.warns⟩ := by
  intro curX hX hk
  have hkI := hk "items" (by simp)
  have hkO := hk "ordered" (by simp)
  have hkA := hk "additionalItems" (by simp)
  have hkMn := hk "minItems" (by simp)
  have hkMx := hk "maxItems" (by simp)
  have hkU := hk "uniqueItems" (by simp)
  unfold array at h
  rw [jget_obj (JSON.obj l) "items" rfl, ok_bind] at h
  by_cases hti : truthy (getkPure (JSON.obj l) "items") = true
  · rw [if_pos hti] at h
    cases hra : resolveAsArray res (getkPure (JSON.obj l) "items") with
    | error e => rw [hra, error_bind] at h; exact Except.noConfusion h
    | ok t =>
        obtain ⟨rules, it', w⟩ := t
        rw [hra, ok_bind] at h
        dsimp only at h
        rw [pure_eq_ok, ok_bind] at h
        dsimp only at h
        have hc2 : isObjB (jset (JSON.obj l) "items" it') = true := rfl
        rw [jget_obj _ "additionalItems" hc2, ok_bind,
          jget_obj _ "minItems" hc2, ok_bind,
          jget_obj _ "maxItems" hc2, ok_bind,
          jget_obj _ "uniqueItems" hc2, ok_bind, pure_eq_ok] at h
        cases h
        obtain ⟨hfix, htr⟩ := stab_resolveAsArray res hres _ _ _ _ hra
        have hitX : getkPure curX "items" = it' := by
          rw [hkI]
          exact getkPure_jset_self l "items" it'
        have htX : truthy (getkPure curX "items") = true := by
          rw [hitX, htr]
          exact hti
        unfold array
        rw [jget_obj curX "items" hX, ok_bind, if_pos htX, hitX, hfix,
          ok_bind]
        dsimp only
        rw [pure_eq_ok, ok_bind]
        dsimp only
        rw [jset_self curX "items" it' hitX
          (truthy_ne_undef _ (by rw [htr]; exact hti))]
        rw [jget_obj curX "additionalItems" hX, ok_bind]
        rw [jget_obj curX "minItems" hX, ok_bind]
        rw [jget_obj curX "maxItems" hX, ok_bind]
        rw [jget_obj curX "uniqueItems" hX, ok_bind]
        rw [hkA, hkMn, hkMx, hkU]
        rfl
  · rw [if_neg hti, jget_obj (JSON.obj l) "ordered" rfl, ok_bind] at h
    by_cases hto : truthy (getkPure (JSON.obj l) "ordered") = true
    · rw [if_pos hto] at h
      cases hra : resolveAsArray res (getkPure (JSON.obj l) "ordered") with
      | error e => rw [hra, error_bind] at h; exact Except.noConfusion h
      | ok t =>
          obtain ⟨rules, og', w⟩ := t
          rw [hra, ok_bind] at h
          dsimp only at h
          rw [pure_eq_ok, ok_bind] at h
          dsimp only at h
          have hc2 : isObjB (jset (JSON.obj l) "ordered" og') = true := rfl
          rw [jget_obj _ "additionalItems" hc2, ok_bind,
            jget_obj _ "minItems" hc2, ok_bind,
            jget_obj _ "maxItems" hc2, ok_bind,
            jget_obj _ "uniqueItems" hc2, ok_bind, pure_eq_ok] at h
          cases h
          obtain ⟨hfix, htr⟩ := stab_resolveAsArray res hres _ _ _ _ hra
          have hitX : truthy (getkPure curX "items") = false := by
            rw [hkI, getkPure_jset_ne (JSON.obj l) "ordered" "items" og'
              (by decide)]
            exact Bool.eq_false_iff.mpr hti
          have hogX : getkPure curX "ordered" = og' := by
            rw [hkO]
            exact getkPure_jset_self l "ordered" og'
          have htX : truthy (getkPure curX "ordered") = true := by
            rw [hogX, htr]
            exact hto
          unfold array
          rw [jget_obj curX "items" hX, ok_bind, hitX,
            if_neg Bool.false_ne_true,
            jget_obj curX "ordered" hX, ok_bind, if_pos htX, hogX, hfix,
            ok_bind]
          dsimp only
          rw [pure_eq_ok, ok_bind]
          dsimp only
          rw [jset_self curX "ordered" og' hogX
            (truthy_ne_undef _ (by rw [htr]; exact hto))]
          rw [jget_obj curX "additionalItems" hX, ok_bind]
          rw [jget_obj curX "minItems" hX, ok_bind]
          rw [jget_obj curX "maxItems" hX, ok_bind]
          rw [jget_obj curX "uniqueItems" hX, ok_bind]
          rw [hkA, hkMn, hkMx, hkU]
          rfl
    · rw [if_neg hto, pure_eq_ok, ok_bind] at h
      dsimp only at h
      rw [jget_obj (JSON.obj l) "additionalItems" rfl, ok_bind,
        jget_obj (JSON.obj l) "minItems" rfl, ok_bind,
        jget_obj (JSON.obj l) "maxItems" rfl, ok_bind,
        jget_obj (JSON.obj l) "uniqueItems" rfl, ok_bind, pure_eq_ok] at h
      cases h
      have hitX : truthy (getkPure curX "items") = false := by
        rw [hkI]
        exact Bool.eq_false_iff.mpr hti
      have hogX : truthy (getkPure curX "ordered") = false := by
        rw [hkO]
        exact Bool.eq_false_iff.mpr hto
      unfold array
      rw [jget_obj curX "items" hX, ok_bind, hitX, if_neg Bool.false_ne_true,
        jget_obj curX "ordered" hX, ok_bind, hogX,
        if_neg Bool.false_ne_true, pure_eq_ok, ok_bind]
      dsimp only
      rw [jget_obj curX "additionalItems" hX, ok_bind]
      rw [jget_obj curX "minItems" hX, ok_bind]
      rw [jget_obj curX "maxItems" hX, ok_bind]
      rw [jget_obj curX "uniqueItems" hX, ok_bind]
      rw [hkMn, hkMx, hkU]
      rfl

/-- The number builder only looks at the numeric keyword keys. -/
theorem number_congr (a b : JSON) (ha : isObjB a = true)
    (hb : isObjB b = true)
    (hk : ∀ k ∈ (["type", "minimum", "maximum", "exclusiveMinimum",
      "exclusiveMaximum", "multipleOf"] : List String),
      getkPure b k = getkPure a k) :
    number b = number a := by
  unfold number
  rw [jget_obj a "type" ha, ok_bind, jget_obj a "minimum" ha, ok_bind,
    jget_obj a "maximum" ha, ok_bind, jget_obj a "exclusiveMinimum" ha,
    ok_bind, jget_obj a "exclusiveMaximum" ha, ok_bind,
    jget_obj a "multipleOf" ha, ok_bind,
    jget_obj b "type" hb, ok_bind, jget_obj b "minimum" hb, ok_bind,
    jget_obj b "maximum" hb, ok_bind, jget_obj b "exclusiveMinimum" hb,
    ok_bind, jget_obj b "exclusiveMaximum" hb, ok_bind,
    jget_obj b "multipleOf" hb, ok_bind,
    hk "type" (by simp), hk "minimum" (by simp), hk "maximum" (by simp),
    hk "exclusiveMinimum" (by simp), hk "exclusiveMaximum" (by simp),
    hk "multipleOf" (by simp)]

/-- Re-running the type switch on a node agreeing (up to the minLength
default) with the returned node on every key the taken branch reads
reproduces the branch result on the new node. -/
theorem gstab_joitypeSwitch (cfg : Cfg) (res : Resolver) (hres : HStab res)
    (l : List (String × JSON)) (t : JSON) (r : Res)
    (h : joitypeSwitch cfg res (.obj l) t = .ok (some r))
    (curX : JSON) (hX : isObjB curX = true)
    (hq : ∀ k ∈ joitypeReads t, quirkEq r.node curX k) :
    joitypeSwitch cfg res curX t = .ok (some ⟨r.rule, curX, r.warns⟩) := by
  unfold joitypeSwitch at h ⊢
  by_cases ha : eqStr t "array" = true
  · rw [if_pos ha] at h ⊢
    cases harr : array res (.obj l) with
    | error e => rw [harr, error_bind] at h; exact Except.noConfusion h
    | ok rr =>
        have hrr : rr = r := by
          rw [harr, ok_bind, pure_eq_ok] at h
          exact Option.some.inj (Except.ok.inj h)
        subst hrr
        have hreads : joitypeReads t = ["items", "ordered",
            "additionalItems", "minItems", "maxItems", "uniqueItems"] := by
          unfold joitypeReads
          rw [if_pos ha]
        rw [hreads] at hq
        have hkeq : ∀ k ∈ (["items", "ordered", "additionalItems",
            "minItems", "maxItems", "uniqueItems"] : List String),
            getkPure curX k = getkPure rr.node k := by
          intro k hk
          refine quirkEq_ne _ _ _ ?_ (hq k hk)
          simp only [List.mem_cons, List.not_mem_nil, or_false] at hk
          rcases hk with rfl | rfl | rfl | rfl | rfl | rfl <;> decide
        rw [gstab_array res hres l rr harr curX hX hkeq, ok_bind]
        rfl
  · rw [if_neg ha] at h ⊢
    by_cases hb : eqStr t "boolean" = true
    · rw [if_pos hb] at h ⊢
      have := Option.some.inj (Except.ok.inj h)
      subst this
      rfl
    · rw [if_neg hb] at h ⊢
      by_cases hn : (eqStr t "integer" || eqStr t "number") = true
      · rw [if_pos hn] at h ⊢
        cases hnum : number (.obj l) with
        | error e => rw [hnum, error_bind] at h; exact Except.noConfusion h
        | ok nr =>
            have hr : (⟨nr, .obj l, []⟩ : Res) = r := by
              rw [hnum, ok_bind, pure_eq_ok] at h
              exact Option.some.inj (Except.ok.inj h)
            subst hr
            have hreads : joitypeReads t = ["type", "minimum", "maximum",
                "exclusiveMinimum", "exclusiveMaximum", "multipleOf"] := by
              unfold joitypeReads
              rw [if_neg ha, if_pos hn]
            rw [hreads] at hq
            have hkeq : ∀ k ∈ (["type", "minimum", "maximum",
                "exclusiveMinimum", "exclusiveMaximum",
                "multipleOf"] : List String),
                getkPure curX k = getkPure (JSON.obj l) k := by
              intro k hk
              refine quirkEq_ne _ _ _ ?_ (hq k hk)
              simp only [List.mem_cons, List.not_mem_nil, or_false] at hk
              rcases hk with rfl | rfl | rfl | rfl | rfl | rfl <;> decide
            rw [number_congr (.obj l) curX rfl hX hkeq, hnum, ok_bind]
            rfl
      · rw [if_neg hn] at h ⊢
        by_cases ho : eqStr t "object" = true
        · rw [if_pos ho] at h ⊢
          cases hobj : object res (.obj l) with
          | error e => rw [hobj, error_bind] at h; exact Except.noConfusion h
          | ok rr =>
              have hrr : rr = r := by
                rw [hobj, ok_bind, pure_eq_ok] at h
                exact Option.some.inj (Except.ok.inj h)
              subst hrr
              have hreads : joitypeReads t = ["properties", "required",
                  "additionalProperties", "minProperties",
                  "maxProperties"] := by
                unfold joitypeReads
                rw [if_neg ha, if_neg hn, if_pos ho]
              rw [hreads] at hq
              have hkeq : ∀ k ∈ (["properties", "required",
                  "additionalProperties", "minProperties",
                  "maxProperties"] : List String),
                  getkPure curX k = getkPure rr.node k := by
                intro k hk
                refine quirkEq_ne _ _ _ ?_ (hq k hk)
                simp only [List.mem_cons, List.not_mem_nil, or_false] at hk
                rcases hk with rfl | rfl | rfl | rfl | rfl <;> decide
              rw [gstab_object res hres l rr hobj curX hX hkeq, ok_bind]
              rfl
        · rw [if_neg ho] at h ⊢
          by_cases hs : eqStr t "string" = true
          · rw [if_pos hs] at h ⊢
            cases hstr : string (.obj l) with
            | error e => rw [hstr, error_bind] at h; exact Except.noConfusion h
            | ok p =>
                obtain ⟨rr, cur'⟩ := p
                rw [hstr, ok_bind] at h
                dsimp only at h
                have hr : (⟨rr, cur', []⟩ : Res) = r :=
                  Option.some.inj (Except.ok.inj h)
                subst hr
                have hreads : joitypeReads t = ["enum", "format",
                    "pattern", "minLength", "maxLength", "minimum",
                    "maximum"] := by
                  unfold joitypeReads
                  rw [if_neg ha, if_neg hn, if_neg ho, if_pos hs]
                rw [hreads] at hq
                rw [gstab_string l rr cur' hstr curX hX hq, ok_bind]
                rfl
          · rw [if_neg hs] at h ⊢
            by_cases hnl : eqStr t "null" = true
            · rw [if_pos hnl] at h ⊢
              have := Option.some.inj (Except.ok.inj h)
              subst this
              rfl
            · rw [if_neg hnl] at h ⊢
              cases hts : cfg.types with
              | none =>
                  rw [hts] at h
                  cases t <;> exact Option.noConfusion (Except.ok.inj h)
              | some ts =>
                  rw [hts] at h
                  cases t with
                  | str s =>
                      dsimp only at h ⊢
                      cases hl : lookupFirst ts s with
                      | none =>
                          rw [hl] at h
                          exact Option.noConfusion (Except.ok.inj h)
                      | some rr =>
                          rw [hl] at h
                          have hr : (⟨rr, .obj l, []⟩ : Res) = r :=
                            Option.some.inj (Except.ok.inj h)
                          subst hr
                          rfl
                  | _ => exact Option.noConfusion (Except.ok.inj h)

theorem quirkEq_refl (m : JSON) (k : String) : quirkEq m m k := Or.inl rfl

theorem quirkEq_trans (a b c : JSON) (k : String)
    (h1 : quirkEq a b k) (h2 : quirkEq b c k) : quirkEq a c k := by
  rcases h1 with e1 | ⟨hk, ha, hb⟩
  · rcases h2 with e2 | ⟨hk2, hb2, hc⟩
    · exact Or.inl (e2.trans e1)
    · exact Or.inr ⟨hk2, e1.symm.trans hb2, hc⟩
  · rcases h2 with e2 | ⟨hk2, hb2, hc⟩
    · exact Or.inr ⟨hk, ha, e2.trans hb⟩
    · exact absurd (hb.symm.trans hb2) (fun hx => JSON.noConfusion hx)

/-- The node the string builder returns: unchanged, or the input with the
minLength default written. -/
theorem string_node (l : List (String × JSON)) (r : Rule) (n' : JSON)
    (h : string (.obj l) = .ok (r, n')) :
    n' = .obj l ∨ (getkPure (.obj l) "minLength" = .undef ∧
      n' = jset (.obj l) "minLength" (.num 0)) := by
  unfold string at h
  rw [jget_obj (JSON.obj l) "enum" rfl, ok_bind] at h
  by_cases he : truthy (getkPure (JSON.obj l) "enum") = true
  · rw [if_pos he] at h
    exact Or.inl (congrArg Prod.snd (Except.ok.inj h)).symm
  · rw [if_neg he, jget_obj (JSON.obj l) "format" rfl, ok_bind] at h
    by_cases hd : (eqStr (getkPure (JSON.obj l) "format") "date" ||
        eqStr (getkPure (JSON.obj l) "format") "date-time") = true
    · rw [if_pos hd] at h
      cases hdc : date (.obj l) with
      | error e => rw [hdc, error_bind] at h; exact Except.noConfusion h
      | ok dr =>
          rw [hdc, ok_bind] at h
          exact Or.inl (congrArg Prod.snd (Except.ok.inj h)).symm
    · rw [if_neg hd] at h
      by_cases hb : eqStr (getkPure (JSON.obj l) "format") "binary" = true
      · rw [if_pos hb] at h
        cases hbc : binary (.obj l) with
        | error e => rw [hbc, error_bind] at h; exact Except.noConfusion h
        | ok br =>
            rw [hbc, ok_bind] at h
            exact Or.inl (congrArg Prod.snd (Except.ok.inj h)).symm
      · rw [if_neg hb] at h
        dsimp only at h
        rcases regularString_node _ _ _ _ h with he2 | ⟨hml, he2⟩
        · exact Or.inl he2
        · refine Or.inr ⟨?_, he2⟩
          rw [jget_obj (JSON.obj l) "minLength" rfl] at hml
          exact Except.ok.inj hml

/-- The string builder changes no key, up to the minLength default. -/
theorem string_frame (l : List (String × JSON)) (r : Rule) (n' : JSON)
    (h : string (.obj l) = .ok (r, n')) :
    isObjB n' = true ∧ ∀ k, quirkEq (.obj l) n' k := by
  rcases string_node l r n' h with rfl | ⟨hml, rfl⟩
  · exact ⟨rfl, fun _ => Or.inl rfl⟩
  · refine ⟨rfl, fun k => ?_⟩
    by_cases hk : k = "minLength"
    · subst hk
      exact Or.inr ⟨rfl, hml, getkPure_jset_self l _ _⟩
    · exact Or.inl (getkPure_jset_ne _ _ _ _ hk)

/-- The array builder only writes the items or ordered key. -/
theorem array_frame (res : Resolver) (l : List (String × JSON)) (out : Res)
    (h : array res (.obj l) = .ok out) :
    isObjB out.node = true ∧
      ∀ k, ¬k ∈ (["items", "ordered"] : List String) →
        getkPure out.node k = getkPure (.obj l) k := by
  unfold array at h
  rw [jget_obj (JSON.obj l) "items" rfl, ok_bind] at h
  by_cases hti : truthy (getkPure (JSON.obj l) "items") = true
  · rw [if_pos hti] at h
    cases hra : resolveAsArray res (getkPure (JSON.obj l) "items") with
    | error e => rw [hra, error_bind] at h; exact Except.noConfusion h
    | ok t =>
        obtain ⟨rules, it', w⟩ := t
        rw [hra, ok_bind] at h
        dsimp only at h
        rw [pure_eq_ok, ok_bind] at h
        dsimp only at h
        have hc2 : isObjB (jset (JSON.obj l) "items" it') = true := rfl
        rw [jget_obj _ "additionalItems" hc2, ok_bind,
          jget_obj _ "minItems" hc2, ok_bind,
          jget_obj _ "maxItems" hc2, ok_bind,
          jget_obj _ "uniqueItems" hc2, ok_bind, pure_eq_ok] at h
        cases h
        refine ⟨rfl, fun k hk => ?_⟩
        simp only [List.mem_cons, List.not_mem_nil, or_false, not_or] at hk
        exact getkPure_jset_ne (JSON.obj l) "items" k it' hk.1
  · rw [if_neg hti, jget_obj (JSON.obj l) "ordered" rfl, ok_bind] at h
    by_cases hto : truthy (getkPure (JSON.obj l) "ordered") = true
    · rw [if_pos hto] at h
      cases hra : resolveAsArray res (getkPure (JSON.obj l) "ordered") with
      | error e => rw [hra, error_bind] at h; exact Except.noConfusion h
      | ok t =>
          obtain ⟨rules, og', w⟩ := t
          rw [hra, ok_bind] at h
          dsimp only at h
          rw [pure_eq_ok, ok_bind] at h
          dsimp only at h
          have hc2 : isObjB (jset (JSON.obj l) "ordered" og') = true := rfl
          rw [jget_obj _ "additionalItems" hc2, ok_bind,
            jget_obj _ "minItems" hc2, ok_bind,
            jget_obj _ "maxItems" hc2, ok_bind,
            jget_obj _ "uniqueItems" hc2, ok_bind, pure_eq_ok] at h
          cases h
          refine ⟨rfl, fun k hk => ?_⟩
          simp only [List.mem_cons, List.not_mem_nil, or_false, not_or] at hk
          exact getkPure_jset_ne (JSON.obj l) "ordered" k og' hk.2
    · rw [if_neg hto, pure_eq_ok, ok_bind] at h
      dsimp only at h
      rw [jget_obj (JSON.obj l) "additionalItems" rfl, ok_bind,
        jget_obj (JSON.obj l) "minItems" rfl, ok_bind,
        jget_obj (JSON.obj l) "maxItems" rfl, ok_bind,
        jget_obj (JSON.obj l) "uniqueItems" rfl, ok_bind, pure_eq_ok] at h
      cases h
      exact ⟨rfl, fun _ _ => rfl⟩

/-- The object builder only writes the properties and additionalProperties
keys. -/
theorem object_frame (res : Resolver) (l : List (String × JSON)) (out : Res)
    (h : object res (.obj l) = .ok out) :
    isObjB out.node = true ∧
      ∀ k, ¬k ∈ (["properties", "additionalProperties"] : List String) →
        getkPure out.node k = getkPure (.obj l) k := by
  unfold object at h
  cases h1 : resolveproperties res (.obj l) with
  | error e => rw [h1, error_bind] at h; exact Except.noConfusion h
  | ok t1 =>
      obtain ⟨p?, cur1, w1⟩ := t1
      rw [h1, ok_bind] at h
      dsimp only at h
      obtain ⟨hshape, hframe⟩ := resolveproperties_shape res _ _ _ _ h1
      have hc1 : isObjB cur1 = true := hshape
      rw [jget_obj cur1 "additionalProperties" hc1, ok_bind] at h
      by_cases hio :
          isObjectJS (getkPure cur1 "additionalProperties") = true
      · rw [if_pos hio] at h
        cases hr : res (getkPure cur1 "additionalProperties") with
        | error e => rw [hr, error_bind] at h; exact Except.noConfusion h
        | ok rA =>
            rw [hr, ok_bind, pure_eq_ok, ok_bind] at h
            dsimp only at h
            have hc2 : isObjB (jset cur1 "additionalProperties" rA.node) =
                true := by rw [isObjB_jset]; exact hc1
            rw [jget_obj _ "minProperties" hc2, ok_bind,
              jget_obj _ "maxProperties" hc2, ok_bind, pure_eq_ok] at h
            cases h
            refine ⟨hc2, fun k hk => ?_⟩
            simp only [List.mem_cons, List.not_mem_nil, or_false,
              not_or] at hk
            rw [getkPure_jset_ne _ _ _ _ hk.2]
            exact hframe k hk.1
      · rw [if_neg hio, pure_eq_ok, ok_bind] at h
        dsimp only at h
        rw [jget_obj cur1 "minProperties" hc1, ok_bind,
          jget_obj cur1 "maxProperties" hc1, ok_bind, pure_eq_ok] at h
        cases h
        refine ⟨hc1, fun k hk => ?_⟩
        simp only [List.mem_cons, List.not_mem_nil, or_false, not_or] at hk
        exact hframe k hk.1

/-- One type-dispatch step only writes the keys of its branch, up to the
minLength default, and keeps the node an object. -/
theorem joitype_frame (cfg : Cfg) (res : Resolver) (l : List (String × JSON))
    (t f : JSON) (out : Res)
    (h : joitype cfg res (.obj l) t f = .ok out) :
    isObjB out.node = true ∧
      ∀ k, ¬k ∈ writesOf (refinedOf cfg t f) → quirkEq (.obj l) out.node k := by
  unfold joitype at h
  cases hsw : joitypeSwitch cfg res (.obj l) (refinedOf cfg t f) with
  | error e => rw [hsw, error_bind] at h; exact Except.noConfusion h
  | ok b =>
      rw [hsw, ok_bind] at h
      cases b with
      | none =>
          dsimp only at h
          rw [jget_obj (JSON.obj l) "type" rfl, ok_bind] at h
          exact Except.noConfusion h
      | some rr =>
          dsimp only at h
          cases h
          unfold joitypeSwitch at hsw
          by_cases ha : eqStr (refinedOf cfg t f) "array" = true
          · rw [if_pos ha] at hsw
            cases harr : array res (.obj l) with
            | error e =>
                rw [harr, error_bind] at hsw
                exact Except.noConfusion hsw
            | ok r2 =>
                rw [harr, ok_bind, pure_eq_ok] at hsw
                have hrr : r2 = rr := Option.some.inj (Except.ok.inj hsw)
                subst hrr
                obtain ⟨ho, hf⟩ := array_frame res l r2 harr
                refine ⟨ho, fun k hk => ?_⟩
                unfold writesOf at hk
                rw [if_pos ha] at hk
                exact Or.inl (hf k hk)
          · rw [if_neg ha] at hsw
            have hwr : writesOf (refinedOf cfg t f) =
                if eqStr (refinedOf cfg t f) "object" then
                  ["properties", "additionalProperties"] else [] := by
              unfold writesOf
              rw [if_neg ha]
            by_cases hb : eqStr (refinedOf cfg t f) "boolean" = true
            · rw [if_pos hb] at hsw
              have := Option.some.inj (Except.ok.inj hsw)
              subst this
              exact ⟨rfl, fun k _ => Or.inl rfl⟩
            · rw [if_neg hb] at hsw
              by_cases hn : (eqStr (refinedOf cfg t f) "integer" ||
                  eqStr (refinedOf cfg t f) "number") = true
              · rw [if_pos hn] at hsw
                cases hnum : number (.obj l) with
                | error e =>
                    rw [hnum, error_bind] at hsw
                    exact Except.noConfusion hsw
                | ok nr =>
                    rw [hnum, ok_bind, pure_eq_ok] at hsw
                    have hrr : (⟨nr, .obj l, []⟩ : Res) = rr :=
                      Option.some.inj (Except.ok.inj hsw)
                    subst hrr
                    exact ⟨rfl, fun k _ => Or.inl rfl⟩
              · rw [if_neg hn] at hsw
                by_cases hob : eqStr (refinedOf cfg t f) "object" = true
                · rw [if_pos hob] at hsw
                  cases hobj : object res (.obj l) with
                  | error e =>
                      rw [hobj, error_bind] at hsw
                      exact Except.noConfusion hsw
                  | ok r2 =>
                      rw [hobj, ok_bind, pure_eq_ok] at hsw
                      have hrr : r2 = rr := Option.some.inj (Except.ok.inj hsw)
                      subst hrr
                      obtain ⟨ho, hf⟩ := object_frame res l r2 hobj
                      refine ⟨ho, fun k hk => ?_⟩
                      rw [hwr, if_pos hob] at hk
                      exact Or.inl (hf k hk)
                · rw [if_neg hob] at hsw
                  by_cases hst : eqStr (refinedOf cfg t f) "string" = true
                  · rw [if_pos hst] at hsw
                    cases hstr : string (.obj l) with
                    | error e =>
                        rw [hstr, error_bind] at hsw
                        exact Except.noConfusion hsw
                    | ok p =>
                        obtain ⟨r2, cur'⟩ := p
                        rw [hstr, ok_bind] at hsw
                        dsimp only at hsw
                        have hrr : (⟨r2, cur', []⟩ : Res) = rr :=
                          Option.some.inj (Except.ok.inj hsw)
                        subst hrr
                        obtain ⟨ho, hf⟩ := string_frame l r2 cur' hstr
                        exact ⟨ho, fun k _ => hf k⟩
                  · rw [if_neg hst] at hsw
                    by_cases hnl : eqStr (refinedOf cfg t f) "null" = true
                    · rw [if_pos hnl] at hsw
                      have := Option.some.inj (Except.ok.inj hsw)
                      subst this
                      exact ⟨rfl, fun k _ => Or.inl rfl⟩
                    · rw [if_neg hnl] at hsw
                      cases hts : cfg.types with
                      | none =>
                          rw [hts] at hsw
                          cases refinedOf cfg t f <;>
                            exact Option.noConfusion (Except.ok.inj hsw)
                      | some ts =>
                          rw [hts] at hsw
                          cases hT : refinedOf cfg t f with
                          | str s =>
                              rw [hT] at hsw
                              dsimp only at hsw
                              cases hl : lookupFirst ts s with
                              | none =>
                                  rw [hl] at hsw
                                  exact Option.noConfusion (Except.ok.inj hsw)
                              | some r2 =>
                                  rw [hl] at hsw
                                  have hrr : (⟨r2, .obj l, []⟩ : Res) = rr :=
                                    Option.some.inj (Except.ok.inj hsw)
                                  subst hrr
                                  exact ⟨rfl, fun k _ => Or.inl rfl⟩
                          | _ =>
                              rw [hT] at hsw
                              exact Option.noConfusion (Except.ok.inj hsw)

/-- A key one branch reads is only ever written by that same branch. -/
theorem reads_writes_disjoint (T U : JSON) (k : String)
    (hr : k ∈ joitypeReads T) (hw : k ∈ writesOf U) : T = U := by
  unfold writesOf at hw
  unfold joitypeReads at hr
  by_cases w1 : eqStr U "array" = true
  · rw [if_pos w1] at hw
    by_cases a1 : eqStr T "array" = true
    · rw [eqStr_iff] at w1 a1
      rw [a1, w1]
    · rw [if_neg a1] at hr
      exfalso
      by_cases a2 : (eqStr T "integer" || eqStr T "number") = true
      · rw [if_pos a2] at hr
        simp only [List.mem_cons, List.not_mem_nil, or_false] at hw
        rcases hw with rfl | rfl <;> simp at hr
      · rw [if_neg a2] at hr
        by_cases a3 : eqStr T "object" = true
        · rw [if_pos a3] at hr
          simp only [List.mem_cons, List.not_mem_nil, or_false] at hw
          rcases hw with rfl | rfl <;> simp at hr
        · rw [if_neg a3] at hr
          by_cases a4 : eqStr T "string" = true
          · rw [if_pos a4] at hr
            simp only [List.mem_cons, List.not_mem_nil, or_false] at hw
            rcases hw with rfl | rfl <;> simp at hr
          · rw [if_neg a4] at hr
            simp at hr
  · rw [if_neg w1] at hw
    by_cases w2 : eqStr U "object" = true
    · rw [if_pos w2] at hw
      by_cases a3 : eqStr T "object" = true
      · rw [eqStr_iff] at w2 a3
        rw [a3, w2]
      · exfalso
        by_cases a1 : eqStr T "array" = true
        · rw [if_pos a1] at hr
          simp only [List.mem_cons, List.not_mem_nil, or_false] at hw
          rcases hw with rfl | rfl <;> simp at hr
        · rw [if_neg a1] at hr
          by_cases a2 : (eqStr T "integer" || eqStr T "number") = true
          · rw [if_pos a2] at hr
            simp only [List.mem_cons, List.not_mem_nil, or_false] at hw
            rcases hw with rfl | rfl <;> simp at hr
          · rw [if_neg a2, if_neg a3] at hr
            by_cases a4 : eqStr T "string" = true
            · rw [if_pos a4] at hr
              simp only [List.mem_cons, List.not_mem_nil, or_false] at hw
              rcases hw with rfl | rfl <;> simp at hr
            · rw [if_neg a4] at hr
              simp at hr
    · rw [if_neg w2] at hw
      simp at hw

theorem writesOf_subset (T : JSON) (k : String) (hk : k ∈ writesOf T) :
    k ∈ (["items", "ordered", "properties",
      "additionalProperties"] : List String) := by
  unfold writesOf at hk
  by_cases h1 : eqStr T "array" = true
  · rw [if_pos h1] at hk
    simp only [List.mem_cons, List.not_mem_nil, or_false] at hk ⊢
    rcases hk with rfl | rfl <;> simp
  · rw [if_neg h1] at hk
    by_cases h2 : eqStr T "object" = true
    · rw [if_pos h2] at hk
      simp only [List.mem_cons, List.not_mem_nil, or_false] at hk ⊢
      rcases hk with rfl | rfl <;> simp
    · rw [if_neg h2] at hk
      simp at hk

/-- Re-running a full type-dispatch step on a node agreeing (up to the
minLength default) with the returned node on the taken branch's read keys
reproduces the rule and warnings and leaves the node alone. -/
theorem gstab_joitype (cfg : Cfg) (res : Resolver) (hres : HStab res)
    (l : List (String × JSON)) (t f : JSON) (out : Res)
    (h : joitype cfg res (.obj l) t f = .ok out)
    (curX : JSON) (hX : isObjB curX = true)
    (hq : ∀ k ∈ joitypeReads (refinedOf cfg t f), quirkEq out.node curX k) :
    joitype cfg res curX t f = .ok ⟨out.rule, curX, out.warns⟩ := by
  unfold joitype at h ⊢
  cases hsw : joitypeSwitch cfg res (.obj l) (refinedOf cfg t f) with
  | error e => rw [hsw, error_bind] at h; exact Except.noConfusion h
  | ok b =>
      rw [hsw, ok_bind] at h
      cases b with
      | none =>
          dsimp only at h
          rw [jget_obj (JSON.obj l) "type" rfl, ok_bind] at h
          exact Except.noConfusion h
      | some rr =>
          dsimp only at h
          cases h
          rw [gstab_joitypeSwitch cfg res hres l _ rr hsw curX hX hq, ok_bind]
          rfl

/-- A type list fold keeps the node an object and only writes branch
keys, up to the minLength default. -/
theorem typesFold_frame (cfg : Cfg) (res : Resolver) :
    ∀ (ts : List JSON) (cur : JSON) (rs : List Rule) (curN : JSON)
      (ws : List JSON),
      typesFold cfg res ts cur = .ok (rs, curN, ws) →
      isObjB cur = true →
      isObjB curN = true ∧
        ∀ k, ¬k ∈ (["items", "ordered", "properties",
          "additionalProperties"] : List String) → quirkEq cur curN k
  | [], cur, rs, curN, ws, h, hc => by
      cases h
      exact ⟨hc, fun k _ => quirkEq_refl cur k⟩
  | t :: ts, cur, rs, curN, ws, h, hc => by
      unfold typesFold at h
      rw [jget_obj cur "format" hc, ok_bind] at h
      cases hj : joitype cfg res cur t (getkPure cur "format") with
      | error e => rw [hj, error_bind] at h; exact Except.noConfusion h
      | ok r =>
          rw [hj, ok_bind] at h
          cases hrest : typesFold cfg res ts r.node with
          | error e => rw [hrest, error_bind] at h; exact Except.noConfusion h
          | ok t2 =>
              obtain ⟨rs', cur', ws'⟩ := t2
              rw [hrest, ok_bind] at h
              cases h
              obtain ⟨l0, rfl⟩ : ∃ l0, cur = .obj l0 := by
                cases cur <;> first | exact ⟨_, rfl⟩ | exact Bool.noConfusion hc
              obtain ⟨ho1, hf1⟩ := joitype_frame cfg res l0 t _ r hj
              obtain ⟨hoN, hfN⟩ :=
                typesFold_frame cfg res ts r.node _ _ _ hrest ho1
              refine ⟨hoN, fun k hk => ?_⟩
              exact quirkEq_trans _ _ _ k
                (hf1 k fun hin => hk (writesOf_subset _ _ hin)) (hfN k hk)

/-- Once a branch of the type switch has run, the rest of a type list
fold preserves the node's agreement with that branch's output on the
branch's read keys: a different-type step cannot write them, and a
same-type step reproduces the recorded run and leaves the node alone. -/
theorem typesFold_inv (cfg : Cfg) (res : Resolver) (hres : HStab res)
    (T nodeI : JSON) (lI : List (String × JSON)) (rI : Res)
    (hswI : joitypeSwitch cfg res (.obj lI) T = .ok (some rI))
    (hnodeI : rI.node = nodeI) :
    ∀ (ts : List JSON) (cur : JSON) (rs : List Rule) (curN : JSON)
      (ws : List JSON),
      typesFold cfg res ts cur = .ok (rs, curN, ws) →
      isObjB cur = true →
      (∀ k ∈ joitypeReads T, quirkEq nodeI cur k) →
      ∀ k ∈ joitypeReads T, quirkEq nodeI curN k
  | [], cur, rs, curN, ws, h, _, hinv => by
      cases h
      exact hinv
  | t :: ts, cur, rs, curN, ws, h, hc, hinv => by
      unfold typesFold at h
      rw [jget_obj cur "format" hc, ok_bind] at h
      cases hj : joitype cfg res cur t (getkPure cur "format") with
      | error e => rw [hj, error_bind] at h; exact Except.noConfusion h
      | ok r =>
          rw [hj, ok_bind] at h
          cases hrest : typesFold cfg res ts r.node with
          | error e => rw [hrest, error_bind] at h; exact Except.noConfusion h
          | ok t2 =>
              obtain ⟨rs', cur', ws'⟩ := t2
              rw [hrest, ok_bind] at h
              cases h
              obtain ⟨l0, rfl⟩ : ∃ l0, cur = .obj l0 := by
                cases cur <;> first | exact ⟨_, rfl⟩ | exact Bool.noConfusion hc
              obtain ⟨ho1, hf1⟩ := joitype_frame cfg res l0 t _ r hj
              have hinvStep : ∀ k ∈ joitypeReads T, quirkEq nodeI r.node k := by
                by_cases hTT :
                    refinedOf cfg t (getkPure (JSON.obj l0) "format") = T
                · have hagr : ∀ k ∈ joitypeReads T,
                      quirkEq rI.node (JSON.obj l0) k := by
                    rw [hnodeI]
                    exact hinv
                  have hg := gstab_joitypeSwitch cfg res hres lI T rI hswI
                    (.obj l0) rfl hagr
                  have hnode : r.node = .obj l0 := by
                    unfold joitype at hj
                    rw [hTT, hg, ok_bind] at hj
                    dsimp only at hj
                    have he := Except.ok.inj hj
                    rw [← he]
                  rw [hnode]
                  exact hinv
                · intro k hkT
                  have hw : ¬k ∈ writesOf
                      (refinedOf cfg t (getkPure (JSON.obj l0) "format")) :=
                    fun hin =>
                      hTT (reads_writes_disjoint T _ k hkT hin).symm
                  exact quirkEq_trans nodeI (.obj l0) r.node k
                    (hinv k hkT) (hf1 k hw)
              exact typesFold_inv cfg res hres T nodeI lI rI hswI hnodeI
                ts r.node _ _ _ hrest ho1 hinvStep

/-- Re-running a type list fold on its final node reproduces the rules,
warnings, and the node itself. -/
theorem typesFold_stab (cfg : Cfg) (res : Resolver) (hres : HStab res) :
    ∀ (ts : List JSON) (cur : JSON) (rs : List Rule) (curN : JSON)
      (ws : List JSON),
      typesFold cfg res ts cur = .ok (rs, curN, ws) →
      isObjB cur = true →
      typesFold cfg res ts curN = .ok (rs, curN, ws)
  | [], cur, rs, curN, ws, h, _ => by
      cases h
      rfl
  | t :: ts, cur, rs, curN, ws, h, hc => by
      unfold typesFold at h
      rw [jget_obj cur "format" hc, ok_bind] at h
      cases hj : joitype cfg res cur t (getkPure cur "format") with
      | error e => rw [hj, error_bind] at h; exact Except.noConfusion h
      | ok r =>
          rw [hj, ok_bind] at h
          cases hrest : typesFold cfg res ts r.node with
          | error e => rw [hrest, error_bind] at h; exact Except.noConfusion h
          | ok t2 =>
              obtain ⟨rs', curM, ws'⟩ := t2
              rw [hrest, ok_bind] at h
              cases h
              obtain ⟨l0, rfl⟩ : ∃ l0, cur = .obj l0 := by
                cases cur <;> first | exact ⟨_, rfl⟩ | exact Bool.noConfusion hc
              obtain ⟨ho1, hf1⟩ := joitype_frame cfg res l0 t _ r hj
              obtain ⟨hoN, hfN⟩ :=
                typesFold_frame cfg res ts r.node _ _ _ hrest ho1
              have hfmt : getkPure curN "format" =
                  getkPure (JSON.obj l0) "format" := by
                have q1 : quirkEq (.obj l0) r.node "format" :=
                  hf1 "format" fun hin => by
                    have := writesOf_subset _ _ hin
                    simp at this
                have q2 : quirkEq r.node curN "format" := hfN "format" (by simp)
                exact quirkEq_ne _ _ _ (by decide)
                  (quirkEq_trans _ _ _ _ q1 q2)
              have hjd := hj
              unfold joitype at hjd
              cases hsw : joitypeSwitch cfg res (.obj l0)
                  (refinedOf cfg t (getkPure (JSON.obj l0) "format")) with
              | error e =>
                  rw [hsw, error_bind] at hjd
                  exact Except.noConfusion hjd
              | ok b =>
                  rw [hsw, ok_bind] at hjd
                  cases b with
                  | none =>
                      dsimp only at hjd
                      rw [jget_obj (JSON.obj l0) "type" rfl, ok_bind] at hjd
                      exact Except.noConfusion hjd
                  | some rr =>
                      dsimp only at hjd
                      have hreq : (⟨Rule.strict cfg.strictMode rr.rule,
                          rr.node, rr.warns⟩ : Res) = r := Except.ok.inj hjd
                      have hinvN : ∀ k ∈ joitypeReads
                          (refinedOf cfg t (getkPure (JSON.obj l0) "format")),
                          quirkEq r.node curN k :=
                        typesFold_inv cfg res hres _ r.node l0 rr hsw
                          (by rw [← hreq]) ts r.node _ _ _ hrest ho1
                          (fun k _ => quirkEq_refl r.node k)
                      have hstep : joitype cfg res curN t
                          (getkPure (JSON.obj l0) "format") =
                          .ok ⟨r.rule, curN, r.warns⟩ :=
                        gstab_joitype cfg res hres l0 t _ r hj curN hoN hinvN
                      have hrest' :=
                        typesFold_stab cfg res hres ts r.node _ _ _ hrest ho1
                      unfold typesFold
                      rw [jget_obj curN "format" hoN, ok_bind, hfmt, hstep,
                        ok_bind]
                      dsimp only
                      rw [hrest', ok_bind]

/-- Re-running the typed resolution on its returned node reproduces the
result, keeps the node an object, and preserves the declared type. -/
theorem resolvetype_stab (cfg : Cfg) (res : Resolver) (hres : HStab res)
    (l : List (String × JSON)) (out : Res)
    (h : resolvetype cfg res (.obj l) = .ok out) :
    resolvetype cfg res out.node = .ok out ∧ isObjB out.node = true ∧
      getkPure out.node "type" = getkPure (.obj l) "type" := by
  unfold resolvetype at h
  rw [jget_obj (JSON.obj l) "type" rfl, ok_bind] at h
  split at h
  · rename_i ts hT
    cases hfold : typesFold cfg res ts (.obj l) with
    | error e => rw [hfold, error_bind] at h; exact Except.noConfusion h
    | ok t2 =>
        obtain ⟨rs, curN, ws⟩ := t2
        rw [hfold, ok_bind] at h
        dsimp only at h
        cases hdec : decorate curN (Rule.alternatives rs) with
        | error e => rw [hdec, error_bind] at h; exact Except.noConfusion h
        | ok js =>
            rw [hdec, ok_bind, pure_eq_ok] at h
            cases h
            obtain ⟨hoN, hfN⟩ :=
              typesFold_frame cfg res ts (.obj l) _ _ _ hfold rfl
            have htypeN : getkPure curN "type" =
                getkPure (JSON.obj l) "type" :=
              quirkEq_ne _ _ _ (by decide) (hfN "type" (by simp))
            have hstab := typesFold_stab cfg res hres ts (.obj l) _ _ _
              hfold rfl
            refine ⟨?_, hoN, htypeN⟩
            unfold resolvetype
            rw [jget_obj curN "type" hoN, ok_bind, htypeN, hT]
            dsimp only
            rw [hstab, ok_bind]
            dsimp only
            rw [hdec, ok_bind]
            rfl
  · rename_i hne
    rw [jget_obj (JSON.obj l) "format" rfl, ok_bind] at h
    cases hj : joitype cfg res (.obj l) (getkPure (JSON.obj l) "type")
        (getkPure (JSON.obj l) "format") with
    | error e => rw [hj, error_bind] at h; exact Except.noConfusion h
    | ok r =>
        rw [hj, ok_bind] at h
        cases hdec : decorate r.node r.rule with
        | error e => rw [hdec, error_bind] at h; exact Except.noConfusion h
        | ok js =>
            rw [hdec, ok_bind, pure_eq_ok] at h
            cases h
            obtain ⟨ho1, hf1⟩ := joitype_frame cfg res l _ _ r hj
            have hkeep : ∀ k, ¬k ∈ (["items", "ordered", "properties",
                "additionalProperties"] : List String) → k ≠ "minLength" →
                getkPure r.node k = getkPure (JSON.obj l) k := by
              intro k hk hkml
              exact quirkEq_ne _ _ _ hkml
                (hf1 k fun hin => hk (writesOf_subset _ _ hin))
            have htype : getkPure r.node "type" =
                getkPure (JSON.obj l) "type" :=
              hkeep "type" (by simp) (by decide)
            have hfmt : getkPure r.node "format" =
                getkPure (JSON.obj l) "format" :=
              hkeep "format" (by simp) (by decide)
            have hstep : joitype cfg res r.node
                (getkPure (JSON.obj l) "type")
                (getkPure (JSON.obj l) "format") =
                .ok ⟨r.rule, r.node, r.warns⟩ :=
              gstab_joitype cfg res hres l _ _ r hj r.node ho1
                (fun k _ => quirkEq_refl r.node k)
            refine ⟨?_, ho1, htype⟩
            unfold resolvetype
            rw [jget_obj r.node "type" ho1, ok_bind, htype]
            split
            · rename_i ts hT
              exact (hne ts hT).elim
            · rw [jget_obj r.node "format" ho1, ok_bind, hfmt, hstep, ok_bind]
              dsimp only
              rw [hdec, ok_bind]
              rfl

theorem arrIndex_named (l : List JSON) (k : String)
    (hk : strToNat? k = none) : arrIndex l k = .undef := by
  simp [arrIndex, hk]

/-- Every branch of the dispatcher other than the object case returns the
input node itself. -/
theorem resolve_nonobj_node (cfg : Cfg) (root : JSON) (fuel : Nat)
    (m : JSON) (out : Res) (hm : isObjB m = false)
    (h : resolve cfg root (fuel + 1) m = .ok out) : out.node = m := by
  unfold resolve at h
  dsimp only at h
  cases m with
  | undef => exact Except.noConfusion h
  | null => exact Except.noConfusion h
  | obj l => exact Bool.noConfusion hm
  | arr l =>
      rw [show jget (JSON.arr l) "type" = .ok (arrIndex l "type") from rfl,
        arrIndex_named l "type" rfl, ok_bind,
        if_neg (by decide : ¬(truthy JSON.undef = true)),
        show jget (JSON.arr l) "anyOf" = .ok (arrIndex l "anyOf") from rfl,
        arrIndex_named l "anyOf" rfl, ok_bind,
        if_neg (by decide : ¬(truthy JSON.undef = true)),
        show jget (JSON.arr l) "allOf" = .ok (arrIndex l "allOf") from rfl,
        arrIndex_named l "allOf" rfl, ok_bind,
        if_neg (by decide : ¬(truthy JSON.undef = true)),
        show jget (JSON.arr l) "oneOf" = .ok (arrIndex l "oneOf") from rfl,
        arrIndex_named l "oneOf" rfl, ok_bind,
        if_neg (by decide : ¬(truthy JSON.undef = true)),
        show jget (JSON.arr l) "not" = .ok (arrIndex l "not") from rfl,
        arrIndex_named l "not" rfl, ok_bind,
        if_neg (by decide : ¬(truthy JSON.undef = true)),
        show jget (JSON.arr l) "$ref" = .ok (arrIndex l "$ref") from rfl,
        arrIndex_named l "$ref" rfl, ok_bind,
        if_neg (by decide : ¬(truthy JSON.undef = true)),
        show jget (JSON.arr l) "enum" = .ok (arrIndex l "enum") from rfl,
        arrIndex_named l "enum" rfl, ok_bind,
        if_neg (by decide : ¬(truthy JSON.undef = true))] at h
      exact (congrArg Res.node (Except.ok.inj h)).symm
  | bool b =>
      have := Except.ok.inj h
      exact (congrArg Res.node this).symm
  | num q =>
      have := Except.ok.inj h
      exact (congrArg Res.node this).symm
  | str s =>
      cases hrt : resolvetype cfg (fun x => resolve cfg root fuel x)
          (.obj [("type", .str s)]) with
      | error e =>
          rw [show jget (JSON.str s) "type" = .ok .undef from rfl,
            ok_bind, if_neg (by decide : ¬(truthy JSON.undef = true)),
            show jget (JSON.str s) "anyOf" = .ok .undef from rfl,
            ok_bind, if_neg (by decide : ¬(truthy JSON.undef = true)),
            show jget (JSON.str s) "allOf" = .ok .undef from rfl,
            ok_bind, if_neg (by decide : ¬(truthy JSON.undef = true)),
            show jget (JSON.str s) "oneOf" = .ok .undef from rfl,
            ok_bind, if_neg (by decide : ¬(truthy JSON.undef = true)),
            show jget (JSON.str s) "not" = .ok .undef from rfl,
            ok_bind, if_neg (by decide : ¬(truthy JSON.undef = true)),
            show jget (JSON.str s) "$ref" = .ok .undef from rfl,
            ok_bind, if_neg (by decide : ¬(truthy JSON.undef = true)),
            show jget (JSON.str s) "enum" = .ok .undef from rfl,
            ok_bind, if_neg (by decide : ¬(truthy JSON.undef = true))] at h
          dsimp only at h
          rw [hrt, error_bind] at h
          exact Except.noConfusion h
      | ok out2 =>
          rw [show jget (JSON.str s) "type" = .ok .undef from rfl,
            ok_bind, if_neg (by decide : ¬(truthy JSON.undef = true)),
            show jget (JSON.str s) "anyOf" = .ok .undef from rfl,
            ok_bind, if_neg (by decide : ¬(truthy JSON.undef = true)),
            show jget (JSON.str s) "allOf" = .ok .undef from rfl,
            ok_bind, if_neg (by decide : ¬(truthy JSON.undef = true)),
            show jget (JSON.str s) "oneOf" = .ok .undef from rfl,
            ok_bind, if_neg (by decide : ¬(truthy JSON.undef = true)),
            show jget (JSON.str s) "not" = .ok .undef from rfl,
            ok_bind, if_neg (by decide : ¬(truthy JSON.undef = true)),
            show jget (JSON.str s) "$ref" = .ok .undef from rfl,
            ok_bind, if_neg (by decide : ¬(truthy JSON.undef = true)),
            show jget (JSON.str s) "enum" = .ok .undef from rfl,
            ok_bind, if_neg (by decide : ¬(truthy JSON.undef = true))] at h
          dsimp only at h
          rw [hrt, ok_bind] at h
          exact (congrArg Res.node (Except.ok.inj h)).symm

/-- Re-running the anyOf resolver on its returned node reproduces the
result; the node only changes at anyOf. -/
theorem stab_resolveAnyOf (res : Resolver) (hres : HStab res)
    (l : List (String × JSON)) (out : Res)
    (h : resolveAnyOf res (.obj l) = .ok out) :
    resolveAnyOf res out.node = .ok out ∧ isObjB out.node = true ∧
      truthy (getkPure out.node "anyOf") = true ∧
      ∀ k, k ≠ "anyOf" → getkPure out.node k = getkPure (.obj l) k := by
  unfold resolveAnyOf at h
  rw [jget_obj (JSON.obj l) "anyOf" rfl, ok_bind] at h
  split at h
  · rename_i lst hA
    cases hm : mapThread res lst with
    | error e => rw [hm, error_bind] at h; exact Except.noConfusion h
    | ok t =>
        obtain ⟨rs, lst2, ws⟩ := t
        rw [hm, ok_bind] at h
        dsimp only at h
        cases h
        have hsm := stab_mapThread res hres lst rs lst2 ws hm
        have hself : getkPure (jset (JSON.obj l) "anyOf" (.arr lst2))
            "anyOf" = .arr lst2 := getkPure_jset_self l _ _
        refine ⟨?_, rfl, ?_,
          fun k hk => getkPure_jset_ne (JSON.obj l) "anyOf" k (.arr lst2) hk⟩
        · unfold resolveAnyOf
          rw [jget_obj (jset (JSON.obj l) "anyOf" (.arr lst2)) "anyOf" rfl,
            ok_bind, hself]
          dsimp only
          rw [hsm, ok_bind]
          dsimp only
          rw [jset_jset_same]
          rfl
        · show truthy (getkPure (jset (JSON.obj l) "anyOf" (.arr lst2))
            "anyOf") = true
          rw [hself]
          rfl
  · exact Except.noConfusion h

/-- Re-running the oneOf resolver on its returned node reproduces the
result; the node only changes at oneOf. -/
theorem stab_resolveOneOf (res : Resolver) (hres : HStab res)
    (l : List (String × JSON)) (out : Res)
    (h : resolveOneOf res (.obj l) = .ok out) :
    resolveOneOf res out.node = .ok out ∧ isObjB out.node = true ∧
      truthy (getkPure out.node "oneOf") = true ∧
      ∀ k, k ≠ "oneOf" → getkPure out.node k = getkPure (.obj l) k := by
  unfold resolveOneOf at h
  rw [jget_obj (JSON.obj l) "oneOf" rfl, ok_bind] at h
  split at h
  · rename_i lst hA
    cases hm : mapThread res lst with
    | error e => rw [hm, error_bind] at h; exact Except.noConfusion h
    | ok t =>
        obtain ⟨rs, lst2, ws⟩ := t
        rw [hm, ok_bind] at h
        dsimp only at h
        cases h
        have hsm := stab_mapThread res hres lst rs lst2 ws hm
        have hself : getkPure (jset (JSON.obj l) "oneOf" (.arr lst2))
            "oneOf" = .arr lst2 := getkPure_jset_self l _ _
        refine ⟨?_, rfl, ?_,
          fun k hk => getkPure_jset_ne (JSON.obj l) "oneOf" k (.arr lst2) hk⟩
        · unfold resolveOneOf
          rw [jget_obj (jset (JSON.obj l) "oneOf" (.arr lst2)) "oneOf" rfl,
            ok_bind, hself]
          dsimp only
          rw [hsm, ok_bind]
          dsimp only
          rw [jset_jset_same]
          rfl
        · show truthy (getkPure (jset (JSON.obj l) "oneOf" (.arr lst2))
            "oneOf") = true
          rw [hself]
          rfl
  · exact Except.noConfusion h

/-- Re-running the not resolver on its returned node reproduces the
result; the node only changes at not. -/
theorem stab_resolveNot (res : Resolver) (hres : HStab res)
    (l : List (String × JSON)) (out : Res)
    (h : resolveNot res (.obj l) = .ok out) :
    resolveNot res out.node = .ok out ∧ isObjB out.node = true ∧
      truthy (getkPure out.node "not") = true ∧
      ∀ k, k ≠ "not" → getkPure out.node k = getkPure (.obj l) k := by
  unfold resolveNot at h
  rw [jget_obj (JSON.obj l) "not" rfl, ok_bind] at h
  split at h
  · rename_i lst hA
    cases hm : mapThread res lst with
    | error e => rw [hm, error_bind] at h; exact Except.noConfusion h
    | ok t =>
        obtain ⟨rs, lst2, ws⟩ := t
        rw [hm, ok_bind] at h
        dsimp only at h
        cases h
        have hsm := stab_mapThread res hres lst rs lst2 ws hm
        have hself : getkPure (jset (JSON.obj l) "not" (.arr lst2))
            "not" = .arr lst2 := getkPure_jset_self l _ _
        refine ⟨?_, rfl, ?_,
          fun k hk => getkPure_jset_ne (JSON.obj l) "not" k (.arr lst2) hk⟩
        · unfold resolveNot
          rw [jget_obj (jset (JSON.obj l) "not" (.arr lst2)) "not" rfl,
            ok_bind, hself]
          dsimp only
          rw [hsm, ok_bind]
          dsimp only
          rw [jset_jset_same]
          rfl
        · show truthy (getkPure (jset (JSON.obj l) "not" (.arr lst2))
            "not") = true
          rw [hself]
          rfl
  · exact Except.noConfusion h

/-- The allOf resolver returns the input node itself (the merged node is
synthetic). -/
theorem resolveAllOf_node (cfg : Cfg) (root : JSON) (res : Resolver)
    (cur : JSON) (out : Res) (h : resolveAllOf cfg root res cur = .ok out) :
    out.node = cur := by
  unfold resolveAllOf at h
  cases hj : jget cur "allOf" with
  | error e => rw [hj, error_bind] at h; exact Except.noConfusion h
  | ok a =>
      rw [hj, ok_bind] at h
      split at h
      · rename_i x lst
        cases hg : getSchemaType cfg root (lst.headD .undef) with
        | error e => rw [hg, error_bind] at h; exact Except.noConfusion h
        | ok t =>
            rw [hg, ok_bind] at h
            cases hc : checkAllOfMembers cfg root t lst with
            | error e => rw [hc, error_bind] at h; exact Except.noConfusion h
            | ok u =>
                rw [hc, ok_bind] at h
                dsimp only at h
                by_cases hobj2 : eqStr t "object" = true
                · rw [if_pos hobj2] at h
                  cases hmg : mergeObject cfg root lst with
                  | error e =>
                      rw [hmg, error_bind] at h
                      exact Except.noConfusion h
                  | ok mg =>
                      rw [hmg, ok_bind] at h
                      cases hr : res mg with
                      | error e =>
                          rw [hr, error_bind] at h
                          exact Except.noConfusion h
                      | ok r2 =>
                          rw [hr, ok_bind] at h
                          exact (congrArg Res.node (Except.ok.inj h)).symm
                · rw [if_neg hobj2] at h
                  cases hmg : mergeArray cfg root lst with
                  | error e =>
                      rw [hmg, error_bind] at h
                      exact Except.noConfusion h
                  | ok mg =>
                      rw [hmg, ok_bind] at h
                      cases hr : res mg with
                      | error e =>
                          rw [hr, error_bind] at h
                          exact Except.noConfusion h
                      | ok r2 =>
                          rw [hr, ok_bind] at h
                          exact (congrArg Res.node (Except.ok.inj h)).symm
      · exact Except.noConfusion h

/-- Stability of the dispatcher at every fuel: re-resolving a returned
node reproduces the same rule, node and warnings, and an object node
stays an object. -/
theorem stab_resolve (cfg : Cfg) (root : JSON) :
    ∀ fuel, HStab (resolve cfg root fuel)
  | 0 => fun _ _ h => Except.noConfusion h
  | fuel + 1 => fun m out h => by
      have IH : HStab (resolve cfg root fuel) := stab_resolve cfg root fuel
      have h0 := h
      by_cases hm : isObjB m = true
      case neg =>
        have hnode := resolve_nonobj_node cfg root fuel m out
          (Bool.eq_false_iff.mpr hm) h
        rw [hnode]
        exact ⟨h0, Or.inl rfl⟩
      case pos =>
        obtain ⟨l, rfl⟩ : ∃ l, m = .obj l := by
          cases m <;> first | exact ⟨_, rfl⟩ | exact Bool.noConfusion hm
        unfold resolve at h
        dsimp only at h
        rw [jget_obj (JSON.obj l) "type" rfl, ok_bind] at h
        by_cases ht : truthy (getkPure (JSON.obj l) "type") = true
        · rw [if_pos ht] at h
          obtain ⟨hrun, hobj, htype⟩ := resolvetype_stab cfg _ IH l out h
          refine ⟨?_, Or.inr ⟨rfl, hobj⟩⟩
          unfold resolve
          dsimp only
          rw [jget_obj out.node "type" hobj, ok_bind, htype, if_pos ht]
          exact hrun
        · rw [if_neg ht, jget_obj (JSON.obj l) "anyOf" rfl, ok_bind] at h
          by_cases ha : truthy (getkPure (JSON.obj l) "anyOf") = true
          · rw [if_pos ha] at h
            obtain ⟨hrun, hobj, htr, hfr⟩ := stab_resolveAnyOf _ IH l out h
            refine ⟨?_, Or.inr ⟨rfl, hobj⟩⟩
            unfold resolve
            dsimp only
            rw [jget_obj out.node "type" hobj, ok_bind,
              hfr "type" (by decide), if_neg ht,
              jget_obj out.node "anyOf" hobj, ok_bind, if_pos htr]
            exact hrun
          · rw [if_neg ha, jget_obj (JSON.obj l) "allOf" rfl, ok_bind] at h
            by_cases hal : truthy (getkPure (JSON.obj l) "allOf") = true
            · rw [if_pos hal] at h
              have hnode := resolveAllOf_node cfg root _ _ out h
              rw [hnode]
              exact ⟨h0, Or.inl rfl⟩
            · rw [if_neg hal, jget_obj (JSON.obj l) "oneOf" rfl,
                ok_bind] at h
              by_cases ho : truthy (getkPure (JSON.obj l) "oneOf") = true
              · rw [if_pos ho] at h
                obtain ⟨hrun, hobj, htr, hfr⟩ :=
                  stab_resolveOneOf _ IH l out h
                refine ⟨?_, Or.inr ⟨rfl, hobj⟩⟩
                unfold resolve
                dsimp only
                rw [jget_obj out.node "type" hobj, ok_bind,
                  hfr "type" (by decide), if_neg ht,
                  jget_obj out.node "anyOf" hobj, ok_bind,
                  hfr "anyOf" (by decide), if_neg ha,
                  jget_obj out.node "allOf" hobj, ok_bind,
                  hfr "allOf" (by decide), if_neg hal,
                  jget_obj out.node "oneOf" hobj, ok_bind, if_pos htr]
                exact hrun
              · rw [if_neg ho, jget_obj (JSON.obj l) "not" rfl,
                  ok_bind] at h
                by_cases hn : truthy (getkPure (JSON.obj l) "not") = true
                · rw [if_pos hn] at h
                  obtain ⟨hrun, hobj, htr, hfr⟩ :=
                    stab_resolveNot _ IH l out h
                  refine ⟨?_, Or.inr ⟨rfl, hobj⟩⟩
                  unfold resolve
                  dsimp only
                  rw [jget_obj out.node "type" hobj, ok_bind,
                    hfr "type" (by decide), if_neg ht,
                    jget_obj out.node "anyOf" hobj, ok_bind,
                    hfr "anyOf" (by decide), if_neg ha,
                    jget_obj out.node "allOf" hobj, ok_bind,
                    hfr "allOf" (by decide), if_neg hal,
                    jget_obj out.node "oneOf" hobj, ok_bind,
                    hfr "oneOf" (by decide), if_neg ho,
                    jget_obj out.node "not" hobj, ok_bind, if_pos htr]
                  exact hrun
                · rw [if_neg hn, jget_obj (JSON.obj l) "$ref" rfl,
                    ok_bind] at h
                  by_cases hrf :
                      truthy (getkPure (JSON.obj l) "$ref") = true
                  · rw [if_pos hrf] at h
                    have hnode : out.node = .obj l := by
                      split at h
                      · rename_i s hS
                        cases hrr : resolveref cfg root s with
                        | error e =>
                            rw [hrr, error_bind] at h
                            exact Except.noConfusion h
                        | ok frag =>
                            rw [hrr, ok_bind] at h
                            cases hin : resolve cfg root fuel frag with
                            | error e =>
                                rw [hin, error_bind] at h
                                exact Except.noConfusion h
                            | ok out2 =>
                                rw [hin, ok_bind] at h
                                exact (congrArg Res.node
                                  (Except.ok.inj h)).symm
                      · exact Except.noConfusion h
                    rw [hnode]
                    exact ⟨h0, Or.inl rfl⟩
                  · rw [if_neg hrf, jget_obj (JSON.obj l) "enum" rfl,
                      ok_bind] at h
                    by_cases he :
                        truthy (getkPure (JSON.obj l) "enum") = true
                    · rw [if_pos he] at h
                      have hnode : out.node = .obj l :=
                        (congrArg Res.node (Except.ok.inj h)).symm
                      rw [hnode]
                      exact ⟨h0, Or.inl rfl⟩
                    · rw [if_neg he] at h
                      have hnode : out.node = .obj l :=
                        (congrArg Res.node (Except.ok.inj h)).symm
                      rw [hnode]
                      exact ⟨h0, Or.inl rfl⟩

/-- C9: `$ref` resolution is idempotent within one translate call: after a
`$ref` target fragment has been resolved once (possibly mutating the
fragment in place), resolving the same `$ref` again over the updated
fragment yields the structurally identical rule, node and warnings. -/
theorem c9_ref_idempotent (cfg : Cfg) (root : JSON) (fuel : Nat)
    (u : String) (frag : JSON) (out : Res)
    (h1 : resolveref cfg root u = .ok frag)
    (h2 : resolve cfg root fuel frag = .ok out) :
    resolve cfg root fuel out.node = .ok out :=
  (stab_resolve cfg root fuel frag out h2).1

/-- C9 witness: a `$ref` to a string-typed definition resolves to the same
rule the second time, over the fragment carrying the written minLength
default. -/
theorem c9_witness :
    ∃ frag out,
      resolveref {} (.obj [("definitions",
          .obj [("x", .obj [("type", .str "string")])])])
        "#/definitions/x" = .ok frag ∧
      resolve {} (.obj [("definitions",
          .obj [("x", .obj [("type", .str "string")])])]) 1 frag =
        .ok out ∧
      resolve {} (.obj [("definitions",
          .obj [("x", .obj [("type", .str "string")])])]) 1 out.node =
        .ok out :=
  ⟨_, _, rfl, rfl,
    c9_ref_idempotent {} _ 1 "#/definitions/x" _ _ rfl rfl⟩

end Enjoi
